import Mathlib

/-!
Michel electron analysis: pulse finder, event aggregation and classification.

A shallow embedding of `MichelEectronAnalysisNewVariableNames.cpp`.

Conventions of the embedding:
* C++ `double` values are modelled by exact rationals (`ℚ`): every statement
  below is a statement in exact arithmetic (`0.1` is `1/10`, `0.76` is `76/100`).
* `h_wf.GetBinContent(i)` for `i = 1 .. ADCSIZE` is the baseline-subtracted sample
  `adcVal[iChan][i-1] - baselineMean[iChan]`; a waveform is the list of these.
* Loops are folds over the list of their indices, state is passed explicitly.
* Histogram fills are modelled by appending the filled value to a list.
-/

namespace MichelAnalysis

/-! ## Constants -/

def N_PMTS : Nat := 12
def PULSE_THRESHOLD : ℚ := 30
def BS_UNCERTAINTY : ℚ := 5
def EV61_THRESHOLD : ℚ := 1100
def MUON_ENERGY_THRESHOLD : ℚ := 50
def MICHEL_ENERGY_MIN : ℚ := 40
def MICHEL_ENERGY_MAX : ℚ := 1000
def MICHEL_ENERGY_MAX_DT : ℚ := 400
def MICHEL_DT_MIN : ℚ := 76 / 100
def MICHEL_DT_MAX : ℚ := 16
def ADCSIZE : Nat := 45
def SIPM_THRESHOLDS : List ℚ := [750, 950, 1200, 1375, 525, 700, 700, 500, 450, 450]

/-! ## Data model -/

/-- Temporary pulse structure (`struct pulse_temp`). The field `energy` is only
assigned for primary channels (`iChan <= 11`); `none` stands for the value the
source leaves unassigned on the other channels. -/
structure pulse_temp where
  start : ℚ
  end_ : ℚ
  peak : ℚ
  energy : Option ℚ
  deriving DecidableEq

/-- Event record (`struct pulse`). `number` only ever receives `+= 1` starting
from `0`, so it is modelled by a natural number. -/
structure pulse where
  start : ℚ
  end_ : ℚ
  peak : ℚ
  energy : ℚ
  number : Nat
  single : Bool
  beam : Bool
  trigger : ℤ
  side_sipm_energy : ℚ
  top_sipm_energy : ℚ
  all_sipm_energy : ℚ
  last_muon_time : ℚ
  is_muon : Bool
  is_michel : Bool
  deriving DecidableEq

/-! ## Utility functions -/

/-- The function `getAverage`. -/
def getAverage (v : List ℚ) : ℚ :=
  if v.isEmpty then 0 else v.foldl (fun a b => a + b) 0 / (v.length : ℚ)

/-- The statement `count[val]++` on a `std::map<double,int>`, kept as a list of
(key, count) entries in ascending key order. -/
def countIncr (val : ℚ) : List (ℚ × Nat) → List (ℚ × Nat)
  | [] => [(val, 1)]
  | (k, c) :: rest =>
    if val < k then (val, 1) :: (k, c) :: rest
    else if k < val then (k, c) :: countIncr val rest
    else (k, c + 1) :: rest

/-- The loop `for (const auto& val : v) count[val]++`. -/
def countMap (v : List ℚ) : List (ℚ × Nat) :=
  v.foldl (fun m val => countIncr val m) []

/-- One iteration of the scan over the count map: the pair is
(`most_common`, `max_count`). -/
def scanStep (acc : ℚ × Nat) (pair : ℚ × Nat) : ℚ × Nat :=
  if pair.2 > acc.2 then (pair.1, pair.2) else acc

/-- The function `mostFrequent`. -/
def mostFrequent (v : List ℚ) : ℚ :=
  match v with
  | [] => 0
  | v0 :: _ =>
    let r := (countMap v).foldl scanStep (v0, 0)
    if r.2 > 1 then r.1 else getAverage v

/-- The function `variance`. -/
def variance (v : List ℚ) : ℚ :=
  if v.length ≤ 1 then 0
  else
    let mean := getAverage v
    let sum := v.foldl (fun s val => s + (val - mean) * (val - mean)) 0
    sum / ((v.length : ℚ) - 1)

/-! ## Channel pulse finder -/

/-- The call `h_wf.GetBinContent(iBin)` for `iBin >= 1`. -/
def GetBinContent (wf : List ℚ) (iBin : Nat) : ℚ := wf.getD (iBin - 1) 0

/-- Time of bin `i` in microseconds: the expression `i * 16.0 / 1000.0`. -/
def binTime (i : Nat) : ℚ := (i : ℚ) * 16 / 1000

/-- The backward walk
`for (j = peakBin - 1; j >= 1 && content(j) > BS_UNCERTAINTY; j--)`,
started at `j`; the pair is (`pt.start`, `pulseEnergy`). -/
def backwardWalk (wf : List ℚ) (peak : ℚ) : Nat → ℚ × ℚ → ℚ × ℚ
  | 0, acc => acc
  | j + 1, acc =>
    if GetBinContent wf (j + 1) > BS_UNCERTAINTY then
      backwardWalk wf peak j
        (if GetBinContent wf (j + 1) > peak * (1 / 10) then binTime (j + 1) else acc.1,
         acc.2 + GetBinContent wf (j + 1))
    else acc

/-- State of the scan of one channel, together with the per-event accumulators
the scan appends to. -/
structure ScanState where
  pulses_temp : List pulse_temp
  onPulse : Bool
  thresholdBin : Nat
  peakBin : Nat
  peak : ℚ
  pulseEnergy : ℚ
  allPulseEnergy : ℚ
  all_chan_start : List ℚ
  all_chan_end : List ℚ
  all_chan_peak : List ℚ
  all_chan_energy : List ℚ
  number : Nat
  deriving DecidableEq

/-- Per-event accumulators carried from channel to channel. -/
structure EventAcc where
  all_chan_start : List ℚ
  all_chan_end : List ℚ
  all_chan_peak : List ℚ
  all_chan_energy : List ℚ
  number : Nat
  deriving DecidableEq

/-- State at the start of a channel: the locals declared before the bin loop. -/
def ScanState.init (acc : EventAcc) : ScanState :=
  { pulses_temp := [], onPulse := false, thresholdBin := 0, peakBin := 0,
    peak := 0, pulseEnergy := 0, allPulseEnergy := 0,
    all_chan_start := acc.all_chan_start, all_chan_end := acc.all_chan_end,
    all_chan_peak := acc.all_chan_peak, all_chan_energy := acc.all_chan_energy,
    number := acc.number }

/-- The block executed when a pulse closes (source lines 430-453); `st` already
holds the updated `pulseEnergy`, `peak` and `peakBin`. -/
def closePulse (wf : List ℚ) (mu1 : Nat → ℚ) (iChan : Nat) (st : ScanState) (iBin : Nat) :
    ScanState :=
  let start0 : ℚ := binTime st.thresholdBin
  let ptPeak : ℚ := if iChan ≤ 11 ∧ mu1 iChan > 0 then st.peak / mu1 iChan else st.peak
  let ptEnd : ℚ := binTime iBin
  let w := backwardWalk wf st.peak (st.peakBin - 1) (start0, st.pulseEnergy)
  if iChan ≤ 11 then
    let ptEnergy : ℚ := if mu1 iChan > 0 then w.2 / mu1 iChan else 0
    { st with
      pulses_temp := st.pulses_temp ++
        [{ start := w.1, end_ := ptEnd, peak := ptPeak, energy := some ptEnergy }]
      all_chan_start := st.all_chan_start ++ [w.1]
      all_chan_end := st.all_chan_end ++ [ptEnd]
      all_chan_peak := st.all_chan_peak ++ [ptPeak]
      all_chan_energy := st.all_chan_energy ++ [ptEnergy]
      number := if ptEnergy > 1 then st.number + 1 else st.number
      peak := 0, peakBin := 0, pulseEnergy := 0, thresholdBin := 0, onPulse := false }
  else
    { st with
      pulses_temp := st.pulses_temp ++
        [{ start := w.1, end_ := ptEnd, peak := ptPeak, energy := none }]
      peak := 0, peakBin := 0, pulseEnergy := 0, thresholdBin := 0, onPulse := false }

/-- Body of the loop `for (int iBin = 1; iBin <= ADCSIZE; iBin++)`
(source lines 413-456). -/
def binStep (wf : List ℚ) (mu1 : Nat → ℚ) (iChan : Nat) (st : ScanState) (iBin : Nat) :
    ScanState :=
  let c := GetBinContent wf iBin
  let st1 : ScanState :=
    if iBin > 15 then { st with allPulseEnergy := st.allPulseEnergy + c } else st
  if st1.onPulse = false ∧ c ≥ PULSE_THRESHOLD then
    { st1 with onPulse := true, thresholdBin := iBin, peakBin := iBin, peak := c,
               pulseEnergy := c }
  else if st1.onPulse = true then
    let st2 : ScanState := { st1 with pulseEnergy := st1.pulseEnergy + c }
    let st3 : ScanState := if st2.peak < c then { st2 with peak := c, peakBin := iBin } else st2
    if c < BS_UNCERTAINTY ∨ iBin = ADCSIZE then closePulse wf mu1 iChan st3 iBin else st3
  else st1

/-- The bin loop run over a list of consecutive bin numbers. -/
def scanBins (wf : List ℚ) (mu1 : Nat → ℚ) (iChan : Nat) (bins : List Nat) (st : ScanState) :
    ScanState :=
  bins.foldl (binStep wf mu1 iChan) st

/-- Pulse detection of one channel: the bin loop over `1 .. ADCSIZE`. -/
def scanChannel (wf : List ℚ) (mu1 : Nat → ℚ) (iChan : Nat) (acc : EventAcc) : ScanState :=
  scanBins wf mu1 iChan (List.range' 1 ADCSIZE) (ScanState.init acc)


/-! ## Event aggregator -/

/-- One input event: trigger time, trigger code and the 23 baseline-subtracted
waveforms (`adcVal[iChan][i] - baselineMean[iChan]`). -/
structure RawEvent where
  nsTime : ℤ
  triggerBits : ℤ
  wfs : List (List ℚ)
  deriving DecidableEq

/-- The per-event locals updated by the channel loop. -/
structure EventState where
  acc : EventAcc
  beam : Bool
  side_sipm_energy : List ℚ
  top_sipm_energy : List ℚ
  sipm_energies : List ℚ
  pulse_at_end : Bool
  pulse_at_end_count : Nat
  deriving DecidableEq

/-- The per-event locals before the channel loop (source lines 380-387). -/
def EventState.init : EventState :=
  { acc := { all_chan_start := [], all_chan_end := [], all_chan_peak := [],
             all_chan_energy := [], number := 0 },
    beam := false, side_sipm_energy := [], top_sipm_energy := [],
    sipm_energies := List.replicate 10 0, pulse_at_end := false, pulse_at_end_count := 0 }

/-- Body of the loop `for (int iChan = 0; iChan < 23; iChan++)` (source lines 389-475). -/
def channelStep (mu1 : Nat → ℚ) (wfs : List (List ℚ)) (es : EventState) (iChan : Nat) :
    EventState :=
  let wf := wfs.getD iChan []
  let ev61_energy : ℚ := (List.range' 1 ADCSIZE).foldl (fun e iBin => e + GetBinContent wf iBin) 0
  let beam := if iChan = 22 ∧ ev61_energy > EV61_THRESHOLD then true else es.beam
  let sc := scanChannel wf mu1 iChan es.acc
  let acc : EventAcc :=
    { all_chan_start := sc.all_chan_start, all_chan_end := sc.all_chan_end,
      all_chan_peak := sc.all_chan_peak, all_chan_energy := sc.all_chan_energy,
      number := sc.number }
  let es1 : EventState := { es with acc := acc, beam := beam }
  let es2 : EventState :=
    if 12 ≤ iChan ∧ iChan ≤ 19 then
      { es1 with side_sipm_energy := es1.side_sipm_energy ++ [sc.allPulseEnergy]
                 sipm_energies := es1.sipm_energies.set (iChan - 12) sc.allPulseEnergy }
    else if 20 ≤ iChan ∧ iChan ≤ 21 then
      let factor : ℚ := if iChan = 20 then 107809 / 100000 else 1
      { es1 with top_sipm_energy := es1.top_sipm_energy ++ [sc.allPulseEnergy * factor]
                 sipm_energies := es1.sipm_energies.set (iChan - 12) (sc.allPulseEnergy * factor) }
    else es1
  if iChan ≤ 11 ∧ GetBinContent wf ADCSIZE > 100 then
    { es2 with pulse_at_end_count := es2.pulse_at_end_count + 1
               pulse_at_end := if es2.pulse_at_end_count + 1 ≥ 10 then true
                               else es2.pulse_at_end }
  else es2

/-- The channel loop over `iChan = 0 .. 22`. -/
def channelLoop (mu1 : Nat → ℚ) (wfs : List (List ℚ)) : EventState :=
  (List.range 23).foldl (channelStep mu1 wfs) EventState.init

/-- The start times kept for the timing-consistency check (source lines 487-491). -/
def chan_starts_no_outliers (all_chan_start : List ℚ) : List ℚ :=
  all_chan_start.filter (fun start => |start - mostFrequent all_chan_start| < 10 * 16 / 1000)

/-- Initialisation and aggregation of the event record (source lines 364-378 and 477-492). -/
def aggregate (nsTime triggerBits : ℤ) (last_muon_time : ℚ) (es : EventState) : pulse :=
  let side := es.side_sipm_energy.foldl (fun a b => a + b) 0
  let top := es.top_sipm_energy.foldl (fun a b => a + b) 0
  { start := (nsTime : ℚ) / 1000 + mostFrequent es.acc.all_chan_start
    end_ := (nsTime : ℚ) / 1000 + mostFrequent es.acc.all_chan_end
    peak := es.acc.all_chan_peak.foldl (fun a b => a + b) 0
    energy := es.acc.all_chan_energy.foldl (fun a b => a + b) 0
    number := es.acc.number
    single := decide (variance (chan_starts_no_outliers es.acc.all_chan_start) < 5 * 16 / 1000)
    beam := es.beam
    trigger := triggerBits
    side_sipm_energy := side
    top_sipm_energy := top
    all_sipm_energy := side + top
    last_muon_time := last_muon_time
    is_muon := false
    is_michel := false }

/-! ## Event classifier -/

/-- What the classifier reads of one event: the aggregated record, the ten sensor-panel
energies and the pulse-at-end flag. -/
structure EventData where
  p : pulse
  sipm_energies : List ℚ
  pulse_at_end : Bool
  deriving DecidableEq

/-- Aggregation of one raw event into the classifier's input. -/
def eventData (mu1 : Nat → ℚ) (ev : RawEvent) (last_muon_time : ℚ) : EventData :=
  let es := channelLoop mu1 ev.wfs
  { p := aggregate ev.nsTime ev.triggerBits last_muon_time es
    sipm_energies := es.sipm_energies
    pulse_at_end := es.pulse_at_end }

/-- The loop `for (int i = 0; i < 10; i++) if (sipm_energies[i] > SIPM_THRESHOLDS[i])`
with its `break`: true when some panel exceeds its threshold. -/
def sipm_hit (sipm_energies : List ℚ) : Bool :=
  (List.range 10).any (fun i => decide (sipm_energies.getD i 0 > SIPM_THRESHOLDS.getD i 0))

/-- The flag `sipm_low`: starts true and is cleared by the first panel above threshold. -/
def sipm_low (sipm_energies : List ℚ) : Bool :=
  (List.range 10).all (fun i => !decide (sipm_energies.getD i 0 > SIPM_THRESHOLDS.getD i 0))

/-- The muon condition (source lines 503-504). -/
def muon_rule (p : pulse) (sipm_energies : List ℚ) (pulse_at_end : Bool) : Bool :=
  (decide (p.energy > MUON_ENERGY_THRESHOLD) && sipm_hit sipm_energies) ||
  (pulse_at_end && decide (p.energy > MUON_ENERGY_THRESHOLD / 2) && sipm_hit sipm_energies)

/-- The flag `is_michel_candidate` (source lines 524-533). -/
def is_michel_candidate (p : pulse) (sipm_energies : List ℚ) (dt : ℚ) : Bool :=
  decide (p.energy ≥ MICHEL_ENERGY_MIN) && decide (p.energy ≤ MICHEL_ENERGY_MAX) &&
  decide (dt ≥ MICHEL_DT_MIN) && decide (dt ≤ MICHEL_DT_MAX) &&
  decide (p.number ≥ 8) && sipm_low sipm_energies &&
  decide (p.trigger ≠ 1) && decide (p.trigger ≠ 4) && decide (p.trigger ≠ 8) &&
  decide (p.trigger ≠ 16)

/-- The flag `is_michel_for_dt` (source line 536). -/
def is_michel_for_dt (p : pulse) (sipm_energies : List ℚ) (dt : ℚ) : Bool :=
  is_michel_candidate p sipm_energies dt && decide (p.energy ≤ MICHEL_ENERGY_MAX_DT)

/-- Per-dataset state of the classifier: the variables declared before the event loop,
the per-file counters, this dataset's histogram fills (in fill order) and the classified
records in event order. -/
structure DatasetState where
  last_muon_time : ℚ
  michel_muon_times : Finset ℚ
  muon_candidates : List (ℚ × ℚ)
  num_events : Nat
  num_muons : Nat
  num_michels : Nat
  h_side_sipm_muon : List ℚ
  h_top_sipm_muon : List ℚ
  h_energy_vs_dt : List (ℚ × ℚ)
  h_michel_energy : List ℚ
  h_dt_michel : List ℚ
  h_muon_energy : List ℚ
  records : List pulse

/-- State at the start of a dataset (source lines 346-348; counters are reset to zero
after every file). -/
def DatasetState.init : DatasetState :=
  { last_muon_time := 0, michel_muon_times := ∅, muon_candidates := [],
    num_events := 0, num_muons := 0, num_michels := 0,
    h_side_sipm_muon := [], h_top_sipm_muon := [], h_energy_vs_dt := [],
    h_michel_energy := [], h_dt_michel := [], h_muon_energy := [], records := [] }

/-- Muon detection (source lines 494-511) on the record `p`. -/
def muonStep (st : DatasetState) (ev : EventData) (p : pulse) : DatasetState × pulse :=
  if muon_rule p ev.sipm_energies ev.pulse_at_end = true then
    ({ st with
        last_muon_time := p.start
        num_muons := st.num_muons + 1
        muon_candidates := st.muon_candidates ++ [(p.start, p.energy)]
        h_side_sipm_muon := st.h_side_sipm_muon ++ [p.side_sipm_energy]
        h_top_sipm_muon := st.h_top_sipm_muon ++ [p.top_sipm_energy] },
     { p with is_muon := true })
  else (st, p)

/-- Michel electron detection (source lines 513-552), run on the state left by the
muon detection. -/
def michelStep (st : DatasetState) (ev : EventData) (p : pulse) : DatasetState :=
  let dt := p.start - st.last_muon_time
  let cand := is_michel_candidate p ev.sipm_energies dt
  let for_dt := is_michel_for_dt p ev.sipm_energies dt
  let st1 : DatasetState :=
    if cand = true then
      { st with
        num_michels := st.num_michels + 1
        michel_muon_times := insert st.last_muon_time st.michel_muon_times
        h_energy_vs_dt := st.h_energy_vs_dt ++ [(dt, p.energy)]
        h_michel_energy := st.h_michel_energy ++ [p.energy] }
    else st
  let p1 : pulse := if cand = true then { p with is_michel := true } else p
  let st2 : DatasetState :=
    if for_dt = true then { st1 with h_dt_michel := st1.h_dt_michel ++ [dt] } else st1
  { st2 with
    records := st2.records ++ [{ p1 with last_muon_time := st2.last_muon_time }] }

/-- The record as the loop body initialises it (source lines 376-378): the aggregated
fields of `ev.p`, the current `last_muon_time` and both flags cleared. -/
def initRecord (st : DatasetState) (ev : EventData) : pulse :=
  { ev.p with last_muon_time := st.last_muon_time, is_muon := false, is_michel := false }

/-- One iteration of the event loop on an aggregated event (source lines 353, 376-378
and 494-552). -/
def classifyStep (st : DatasetState) (ev : EventData) : DatasetState :=
  let st0 : DatasetState := { st with num_events := st.num_events + 1 }
  let r := muonStep st0 ev (initRecord st ev)
  michelStep r.1 ev r.2

/-- The second pass (source lines 555-560). -/
def secondPass (st : DatasetState) : DatasetState :=
  { st with
    h_muon_energy := st.muon_candidates.foldl
      (fun h muon => if muon.1 ∈ st.michel_muon_times then h ++ [muon.2] else h)
      st.h_muon_energy }

/-- Classification of one dataset: the event loop in arrival order, then the second pass. -/
def processFile (events : List EventData) : DatasetState :=
  secondPass (events.foldl classifyStep DatasetState.init)

/-- The event loop on raw events: each event is aggregated with the `last_muon_time`
left by the events before it, then classified. -/
def processRawFile (mu1 : Nat → ℚ) (events : List RawEvent) : DatasetState :=
  secondPass (events.foldl
    (fun st ev => classifyStep st (eventData mu1 ev st.last_muon_time)) DatasetState.init)

/-! ## Reference classifier, as the specification words it -/

/-- The Michel rule as the specification words it: `dt` is measured against the
`lastMuonTime` held before this event's muon rule ran (`pre`), and that time is the one
recorded in the Michel-attribution set. -/
def michelStepRef (pre : ℚ) (st : DatasetState) (ev : EventData) (p : pulse) : DatasetState :=
  let dt := p.start - pre
  let cand := is_michel_candidate p ev.sipm_energies dt
  let for_dt := is_michel_for_dt p ev.sipm_energies dt
  let st1 : DatasetState :=
    if cand = true then
      { st with
        num_michels := st.num_michels + 1
        michel_muon_times := insert pre st.michel_muon_times
        h_energy_vs_dt := st.h_energy_vs_dt ++ [(dt, p.energy)]
        h_michel_energy := st.h_michel_energy ++ [p.energy] }
    else st
  let p1 : pulse := if cand = true then { p with is_michel := true } else p
  let st2 : DatasetState :=
    if for_dt = true then { st1 with h_dt_michel := st1.h_dt_michel ++ [dt] } else st1
  { st2 with
    records := st2.records ++ [{ p1 with last_muon_time := st2.last_muon_time }] }

/-- One step of the reference classifier: the muon rule as coded, then the Michel rule
against the pre-update `lastMuonTime`. -/
def classifyStepRef (st : DatasetState) (ev : EventData) : DatasetState :=
  let st0 : DatasetState := { st with num_events := st.num_events + 1 }
  let r := muonStep st0 ev (initRecord st ev)
  michelStepRef st.last_muon_time r.1 ev r.2

/-- The reference classification of one dataset. -/
def processFileRef (events : List EventData) : DatasetState :=
  secondPass (events.foldl classifyStepRef DatasetState.init)

/-! ## Predicates used to state the properties -/

/-- The state with the tail integral `allPulseEnergy` masked out. -/
def ScanState.core (st : ScanState) : ScanState := { st with allPulseEnergy := 0 }

/-- What the scan has emitted so far: the candidates and the per-event accumulators. -/
def ScanState.outs (st : ScanState) : List pulse_temp × EventAcc :=
  (st.pulses_temp,
   { all_chan_start := st.all_chan_start, all_chan_end := st.all_chan_end,
     all_chan_peak := st.all_chan_peak, all_chan_energy := st.all_chan_energy,
     number := st.number })

/-- Invariant of the event loop: the muon-candidate list and the Michel-attribution set
are determined by the classified records, and the second pass has not run yet. -/
def AssocInv (st : DatasetState) : Prop :=
  st.muon_candidates =
    (st.records.filter (fun r => r.is_muon)).map (fun r => (r.start, r.energy)) ∧
  (∀ t, t ∈ st.michel_muon_times ↔
    ∃ r ∈ st.records, r.is_michel = true ∧ r.last_muon_time = t) ∧
  st.h_muon_energy = []

/-- The count map `m` represents the values of `v`: its keys ascend strictly and its
entries are exactly the pairs (value of `v`, number of its occurrences in `v`). -/
def CountRep (m : List (ℚ × Nat)) (v : List ℚ) : Prop :=
  m.Pairwise (fun a b => a.1 < b.1) ∧ ∀ p, p ∈ m ↔ (p.1 ∈ v ∧ p.2 = v.count p.1)

/-- The forward scan opens exactly one pulse: the first sample `>= PULSE_THRESHOLD` is at
bin `k`, the first later sample `< BS_UNCERTAINTY` is at bin `n`, and no sample after `n`
reaches the threshold. -/
def SinglePulse (wf : List ℚ) (k n : Nat) : Prop :=
  1 ≤ k ∧ k < n ∧ n ≤ ADCSIZE ∧
  (∀ i, 1 ≤ i → i < k → GetBinContent wf i < PULSE_THRESHOLD) ∧
  PULSE_THRESHOLD ≤ GetBinContent wf k ∧
  (∀ i, k < i → i < n → BS_UNCERTAINTY ≤ GetBinContent wf i) ∧
  GetBinContent wf n < BS_UNCERTAINTY ∧
  (∀ i, n < i → i ≤ ADCSIZE → GetBinContent wf i < PULSE_THRESHOLD)

/-- Bin `m` holds the peak of the pulse over bins `k .. n-1`: the first bin of maximal
content. -/
def PeakAt (wf : List ℚ) (k m n : Nat) : Prop :=
  k ≤ m ∧ m < n ∧
  (∀ i, k ≤ i → i < n → GetBinContent wf i ≤ GetBinContent wf m) ∧
  (∀ i, k ≤ i → i < m → GetBinContent wf i < GetBinContent wf m)

/-- Invariant of the scan while a pulse opened at bin `k` is still open after bin `j`. -/
structure OnInv (wf : List ℚ) (k j : Nat) (st0 st : ScanState) : Prop where
  isOn : st.onPulse = true
  thr : st.thresholdBin = k
  pk_ge : k ≤ st.peakBin
  pk_le : st.peakBin ≤ j
  pk_val : st.peak = GetBinContent wf st.peakBin
  pk_max : ∀ i, k ≤ i → i ≤ j → GetBinContent wf i ≤ st.peak
  pk_first : ∀ i, k ≤ i → i < st.peakBin → GetBinContent wf i < st.peak
  energy : st.pulseEnergy = ∑ i in Finset.Icc k j, GetBinContent wf i
  same : st.outs = st0.outs

/-- The state in which the pulse opened at bin `k` with peak at bin `m` is closed, at
bin `n`, when no other pulse was seen in this channel. -/
def closingState (wf : List ℚ) (acc : EventAcc) (k m n : Nat) : ScanState :=
  { ScanState.init acc with
    onPulse := true, thresholdBin := k, peakBin := m, peak := GetBinContent wf m,
    pulseEnergy := ∑ i in Finset.Icc k n, GetBinContent wf i }

/-! ## Concrete inputs -/

/-- Empty per-event accumulators. -/
def acc0 : EventAcc :=
  { all_chan_start := [], all_chan_end := [], all_chan_peak := [], all_chan_energy := [],
    number := 0 }

/-- A gain table with every primary channel calibrated to gain 1. -/
def gainOne : Nat → ℚ := fun _ => 1

/-- A gain table with every primary channel uncalibrated (gain 0). -/
def gainZero : Nat → ℚ := fun _ => 0

/-- A 45-sample waveform with no sample at or above the threshold. -/
def wfQuiet : List ℚ := List.replicate 45 0

/-- A 45-sample waveform with one pulse: threshold crossing at bin 1 (30), then 200, peak
1000 at bin 3, closing at bin 4. -/
def wfSteep : List ℚ := [30, 200, 1000] ++ List.replicate 42 0

/-- A 45-sample waveform with one pulse whose peak is the threshold-crossing sample:
10 at bin 1, 200 at bin 2, closing at bin 3. -/
def wfFoot : List ℚ := [10, 200] ++ List.replicate 43 0

/-- An aggregated event with the given start time (µs), energy (p.e.), channel
multiplicity and trigger code, whose first sensor panel holds `panel0` (ADC) and the other
nine hold 0. -/
def mkEvent (start energy : ℚ) (number : Nat) (trigger : ℤ) (panel0 : ℚ) : EventData :=
  { p := { start := start, end_ := start, peak := 0, energy := energy, number := number,
           single := true, beam := false, trigger := trigger, side_sipm_energy := panel0,
           top_sipm_energy := 0, all_sipm_energy := panel0, last_muon_time := 0,
           is_muon := false, is_michel := false }
    sipm_energies := [panel0, 0, 0, 0, 0, 0, 0, 0, 0, 0]
    pulse_at_end := false }

/-- One muon at t = 0 (energy 200, first panel at 800 > 750), then one Michel-qualifying
event at t = 2.0 (energy 100, multiplicity 9, trigger 2, panels quiet). -/
def dsMuonMichel : List EventData := [mkEvent 0 200 12 2 800, mkEvent 2 100 9 2 0]

/-- A muon at t = 5 (energy 200), a Michel-qualifying event at t = 7, then a second muon
with the same timestamp t = 5 (energy 300) that no event follows. -/
def dsRepeatAfter : List EventData :=
  [mkEvent 5 200 12 2 800, mkEvent 7 100 9 2 0, mkEvent 5 300 12 2 800]

/-- Two muons with the same timestamp t = 5 (energies 200 and 300), then one
Michel-qualifying event at t = 7. -/
def dsRepeatBefore : List EventData :=
  [mkEvent 5 200 12 2 800, mkEvent 5 300 12 2 800, mkEvent 7 100 9 2 0]

/-- A dataset whose first and only event is Michel-qualifying at t = 2.0 µs: no muon
precedes it. -/
def dsNoMuon : List EventData := [mkEvent 2 100 9 2 0]

/-- Invariant of the scan after bin `j`: the candidates emitted so far are well-formed, end
no later than the bin `n` of the last closure, are pairwise disjoint in emission order, and
an open pulse was opened after bin `n`. -/
def ChainInv (wf : List ℚ) (j : Nat) (st : ScanState) : Prop :=
  ∃ n, n ≤ j ∧ (n = 0 ∨ GetBinContent wf n < BS_UNCERTAINTY ∨ n = ADCSIZE) ∧
    (∀ pt ∈ st.pulses_temp, pt.start < pt.end_ ∧ pt.end_ ≤ binTime n) ∧
    st.pulses_temp.Pairwise (fun a b => a.end_ < b.start) ∧
    (st.onPulse = true → n < st.thresholdBin ∧ st.thresholdBin ≤ st.peakBin ∧ st.peakBin ≤ j)

/-! ## Lifetime extractor -/

def FIT_MIN : ℚ := 1
def FIT_MAX : ℚ := 10

/-- The call `h_dt_michel->FindBin(x)` on the histogram with 200 bins over [0, 16):
bin 0 is the underflow bin, bin 201 the overflow bin. -/
def findBin (x : ℚ) : Nat :=
  if x < 0 then 0
  else if x ≥ MICHEL_DT_MAX then 201
  else 1 + (Rat.floor (200 * x / MICHEL_DT_MAX)).toNat

/-- The call `h_dt_michel->GetBinContent(i)`: the number of fills that fell into bin `i`. -/
def dtBinContent (fills : List ℚ) (i : Nat) : ℚ :=
  ((fills.filter (fun x => findBin x = i)).length : ℚ)

/-- The call `h_dt_michel->Integral(a, b)`: the summed content of bins `a .. b`. -/
def dtIntegral (fills : List ℚ) (a b : Nat) : ℚ :=
  (List.range' a (b + 1 - a)).foldl (fun s i => s + dtBinContent fills i) 0

/-- What the source hands to the fit engine: initial values and limits of `N0`, `tau` and
`C`, and the fit range. -/
structure FitSetup where
  N0_init : ℚ
  tau_init : ℚ
  C_init : ℚ
  N0_limits : ℚ × ℚ
  tau_limits : ℚ × ℚ
  C_limits : ℚ × ℚ
  range : ℚ × ℚ
  deriving DecidableEq

/-- The loop over bins `bin_12 .. bin_16` that looks for the smallest non-zero content,
started from `min_content = 1e9`. -/
def minContent (fills : List ℚ) : ℚ :=
  (List.range' (findBin 12) (findBin 16 + 1 - findBin 12)).foldl
    (fun m i => if dtBinContent fills i > 0 ∧ dtBinContent fills i < m then dtBinContent fills i
      else m) 1000000000

/-- Initial parameter estimates and limits (source lines 616-637). -/
def fitSetup (fills : List ℚ) : FitSetup :=
  let integral := dtIntegral fills (findBin FIT_MIN) (findBin FIT_MAX)
  let bin_width : ℚ := MICHEL_DT_MAX / 200
  let N0_init := integral * bin_width / (FIT_MAX - FIT_MIN)
  let C_init : ℚ := if minContent fills < 1000000000 then minContent fills else 1 / 10
  { N0_init := N0_init, tau_init := 22 / 10, C_init := C_init,
    N0_limits := (0, N0_init * 100), tau_limits := (1 / 10, 20),
    C_limits := (-C_init * 10, C_init * 10), range := (FIT_MIN, FIT_MAX) }

/-- Outcome of the fit block: `expFit` is the fit function with its fitted parameters
(or `none` for the null pointer), `warning` is the number of entries reported by the
"insufficient entries, skipping exponential fit" message when it is printed. -/
structure FitOutcome (R : Type) where
  expFit : Option R
  warning : Option Nat

/-- The fit block (source lines 613-685). The fit engine (`TH1::Fit`) is external and taken
as a parameter; `fills` are the entries of `h_dt_michel` in fill order, so that
`GetEntries()` is their number. -/
def lifetimeFit {R : Type} (fitEngine : FitSetup → List ℚ → R) (fills : List ℚ) :
    FitOutcome R :=
  if fills.length > 5 then
    { expFit := some (fitEngine (fitSetup fills) fills), warning := none }
  else
    { expFit := none, warning := some fills.length }

/-! ## Multiplicity as the specification words it -/

/-- The multiplicity as the specification words it: the number of primary channels
`0 .. 11` that have a pulse with energy above 1 photoelectron. -/
def channelsAboveOnePE (mu1 : Nat → ℚ) (wfs : List (List ℚ)) : Nat :=
  ((List.range 12).filter (fun iChan =>
    (scanChannel (wfs.getD iChan []) mu1 iChan acc0).all_chan_energy.any
      (fun e => decide (e > 1)))).length

/-! ## More concrete inputs -/

/-- A 45-sample waveform with two separate pulses: 50 at bin 1 and 50 at bin 3. -/
def wfTwo : List ℚ := [50, 0, 50] ++ List.replicate 42 0

/-- A 45-sample waveform whose only sample at or above the threshold is the last one. -/
def wfLast : List ℚ := List.replicate 44 0 ++ [50]

/-- An event in which primary channel 0 sees two pulses and all other channels are
quiet. -/
def evTwoPulses : RawEvent :=
  { nsTime := 0, triggerBits := 2, wfs := wfTwo :: List.replicate 22 wfQuiet }

/-- An event in which each of the twelve primary channels sees two pulses. -/
def evAllTwo : RawEvent :=
  { nsTime := 0, triggerBits := 2, wfs := List.replicate 12 wfTwo ++ List.replicate 11 wfQuiet }

/-! ## Channel pulse finder: scan lemmas -/

theorem core_outs (st : ScanState) : st.core.outs = st.outs := rfl
theorem core_pulses_temp (st : ScanState) : st.core.pulses_temp = st.pulses_temp := rfl
theorem core_onPulse (st : ScanState) : st.core.onPulse = st.onPulse := rfl
theorem core_thresholdBin (st : ScanState) : st.core.thresholdBin = st.thresholdBin := rfl
theorem core_peakBin (st : ScanState) : st.core.peakBin = st.peakBin := rfl
theorem core_peak (st : ScanState) : st.core.peak = st.peak := rfl
theorem core_pulseEnergy (st : ScanState) : st.core.pulseEnergy = st.pulseEnergy := rfl
theorem core_all_chan_start (st : ScanState) : st.core.all_chan_start = st.all_chan_start := rfl
theorem core_all_chan_end (st : ScanState) : st.core.all_chan_end = st.all_chan_end := rfl
theorem core_all_chan_peak (st : ScanState) : st.core.all_chan_peak = st.all_chan_peak := rfl
theorem core_all_chan_energy (st : ScanState) :
    st.core.all_chan_energy = st.all_chan_energy := rfl
theorem core_number (st : ScanState) : st.core.number = st.number := rfl

theorem binStep_idle (wf : List ℚ) (mu1 : Nat → ℚ) (iChan : Nat) (st : ScanState) (iBin : Nat)
    (hoff : st.onPulse = false) (hc : GetBinContent wf iBin < PULSE_THRESHOLD) :
    (binStep wf mu1 iChan st iBin).core = st.core := by
  unfold binStep
  have hc' : ¬ (GetBinContent wf iBin ≥ PULSE_THRESHOLD) := not_le.mpr hc
  by_cases h15 : iBin > 15 <;> simp [h15, hoff, hc', ScanState.core]

theorem scanBins_idle (wf : List ℚ) (mu1 : Nat → ℚ) (iChan : Nat) (bins : List Nat) :
    ∀ st : ScanState, st.onPulse = false →
      (∀ i ∈ bins, GetBinContent wf i < PULSE_THRESHOLD) →
      (scanBins wf mu1 iChan bins st).core = st.core := by
  induction bins with
  | nil => intro st _ _; rfl
  | cons b bs ih =>
    intro st hoff hb
    have hstep := binStep_idle wf mu1 iChan st b hoff (hb b (List.mem_cons_self _ _))
    have hoff' : (binStep wf mu1 iChan st b).onPulse = false := by
      have := congrArg ScanState.onPulse hstep
      simpa [ScanState.core, hoff] using this
    have hrec := ih (binStep wf mu1 iChan st b) hoff'
      (fun i hi => hb i (List.mem_cons_of_mem _ hi))
    show (scanBins wf mu1 iChan bs (binStep wf mu1 iChan st b)).core = _
    rw [hrec, hstep]

theorem getBinContent_mem (wf : List ℚ) (i : Nat) (h1 : 1 ≤ i) (h2 : i ≤ wf.length) :
    GetBinContent wf i ∈ wf := by
  unfold GetBinContent
  have hlt : i - 1 < wf.length := by omega
  rw [List.getD_eq_getElem _ _ hlt]
  exact List.getElem_mem _

/-- C1. For every 45-sample baseline-subtracted waveform in which no sample is
`>= PULSE_THRESHOLD`, the per-channel scan emits no candidate: `pulses_temp` stays empty
and nothing is appended to `all_chan_start/end/peak/energy` (nor counted in `number`). -/
theorem no_pulse_below_threshold (wf : List ℚ) (mu1 : Nat → ℚ) (iChan : Nat) (acc : EventAcc)
    (hlen : wf.length = ADCSIZE) (hlow : ∀ x ∈ wf, x < PULSE_THRESHOLD) :
    (scanChannel wf mu1 iChan acc).pulses_temp = [] ∧
    (scanChannel wf mu1 iChan acc).all_chan_start = acc.all_chan_start ∧
    (scanChannel wf mu1 iChan acc).all_chan_end = acc.all_chan_end ∧
    (scanChannel wf mu1 iChan acc).all_chan_peak = acc.all_chan_peak ∧
    (scanChannel wf mu1 iChan acc).all_chan_energy = acc.all_chan_energy ∧
    (scanChannel wf mu1 iChan acc).number = acc.number := by
  have hb : ∀ i ∈ List.range' 1 ADCSIZE, GetBinContent wf i < PULSE_THRESHOLD := by
    intro i hi
    rw [List.mem_range'_1] at hi
    exact hlow _ (getBinContent_mem wf i hi.1 (by omega))
  have h := scanBins_idle wf mu1 iChan (List.range' 1 ADCSIZE) (ScanState.init acc) rfl hb
  have e1 := congrArg ScanState.pulses_temp h
  have e2 := congrArg ScanState.all_chan_start h
  have e3 := congrArg ScanState.all_chan_end h
  have e4 := congrArg ScanState.all_chan_peak h
  have e5 := congrArg ScanState.all_chan_energy h
  have e6 := congrArg ScanState.number h
  unfold scanChannel
  simp only [core_pulses_temp, core_all_chan_start, core_all_chan_end, core_all_chan_peak,
    core_all_chan_energy, core_number] at e1 e2 e3 e4 e5 e6
  exact ⟨e1, e2, e3, e4, e5, e6⟩


theorem binStep_open (wf : List ℚ) (mu1 : Nat → ℚ) (iChan : Nat) (st : ScanState) (k : Nat)
    (hoff : st.onPulse = false) (hc : PULSE_THRESHOLD ≤ GetBinContent wf k) :
    OnInv wf k k st (binStep wf mu1 iChan st k) := by
  have hst : (binStep wf mu1 iChan st k).core =
      { st.core with onPulse := true, thresholdBin := k, peakBin := k,
                     peak := GetBinContent wf k, pulseEnergy := GetBinContent wf k } := by
    unfold binStep
    by_cases h15 : k > 15 <;> simp [h15, hoff, hc, ScanState.core]
  have e1 := congrArg ScanState.onPulse hst
  have e2 := congrArg ScanState.thresholdBin hst
  have e3 := congrArg ScanState.peakBin hst
  have e4 := congrArg ScanState.peak hst
  have e5 := congrArg ScanState.pulseEnergy hst
  simp only [core_onPulse, core_thresholdBin, core_peakBin, core_peak, core_pulseEnergy]
    at e1 e2 e3 e4 e5
  refine ⟨e1, e2, by omega, by omega, by rw [e4, e3], ?_, ?_, by simp [e5], ?_⟩
  · intro i h1 h2
    have : i = k := by omega
    rw [this, e4]
  · intro i h1 h2
    omega
  · have e6 := congrArg ScanState.outs hst
    rw [core_outs] at e6
    exact e6

theorem binStep_on (wf : List ℚ) (mu1 : Nat → ℚ) (iChan : Nat) (st0 st : ScanState) (k j : Nat)
    (hinv : OnInv wf k j st0 st) (hkj : k ≤ j)
    (hc : BS_UNCERTAINTY ≤ GetBinContent wf (j + 1)) (hne : j + 1 ≠ ADCSIZE) :
    OnInv wf k (j + 1) st0 (binStep wf mu1 iChan st (j + 1)) := by
  obtain ⟨hon, hthr, hge, hle, hval, hmax, hfirst, hen, hsame⟩ := hinv
  have hc' : ¬ GetBinContent wf (j + 1) < BS_UNCERTAINTY := not_lt.mpr hc
  by_cases hp : st.peak < GetBinContent wf (j + 1)
  · have hst : (binStep wf mu1 iChan st (j + 1)).core =
        { st.core with peak := GetBinContent wf (j + 1), peakBin := j + 1,
                       pulseEnergy := st.pulseEnergy + GetBinContent wf (j + 1) } := by
      unfold binStep
      by_cases h15 : j + 1 > 15 <;> simp [h15, hon, hc', hne, hp, ScanState.core]
    have e1 := congrArg ScanState.onPulse hst
    have e2 := congrArg ScanState.thresholdBin hst
    have e3 := congrArg ScanState.peakBin hst
    have e4 := congrArg ScanState.peak hst
    have e5 := congrArg ScanState.pulseEnergy hst
    simp only [core_onPulse, core_thresholdBin, core_peakBin, core_peak, core_pulseEnergy]
      at e1 e2 e3 e4 e5
    refine ⟨e1.trans hon, e2.trans hthr, by omega, by omega, by rw [e4, e3], ?_, ?_, ?_, ?_⟩
    · intro i h1 h2
      rw [e4]
      rcases Nat.lt_or_ge i (j + 1) with h | h
      · exact le_of_lt (lt_of_le_of_lt (hmax i h1 (by omega)) hp)
      · have : i = j + 1 := by omega
        rw [this]
    · intro i h1 h2
      rw [e4]
      exact lt_of_le_of_lt (hmax i h1 (by omega)) hp
    · rw [e5, hen, Finset.sum_Icc_succ_top (by omega)]
    · have e6 := congrArg ScanState.outs hst
      rw [core_outs] at e6
      exact e6.trans hsame
  · have hst : (binStep wf mu1 iChan st (j + 1)).core =
        { st.core with pulseEnergy := st.pulseEnergy + GetBinContent wf (j + 1) } := by
      unfold binStep
      by_cases h15 : j + 1 > 15 <;> simp [h15, hon, hc', hne, hp, ScanState.core]
    have e1 := congrArg ScanState.onPulse hst
    have e2 := congrArg ScanState.thresholdBin hst
    have e3 := congrArg ScanState.peakBin hst
    have e4 := congrArg ScanState.peak hst
    have e5 := congrArg ScanState.pulseEnergy hst
    simp only [core_onPulse, core_thresholdBin, core_peakBin, core_peak, core_pulseEnergy]
      at e1 e2 e3 e4 e5
    refine ⟨e1.trans hon, e2.trans hthr, by omega, by omega, by rw [e4, e3, hval], ?_, ?_, ?_, ?_⟩
    · intro i h1 h2
      rw [e4]
      rcases Nat.lt_or_ge i (j + 1) with h | h
      · exact hmax i h1 (by omega)
      · have : i = j + 1 := by omega
        rw [this]
        exact not_lt.mp hp
    · intro i h1 h2
      rw [e4]
      rw [e3] at h2
      exact hfirst i h1 h2
    · rw [e5, hen, Finset.sum_Icc_succ_top (by omega)]
    · have e6 := congrArg ScanState.outs hst
      rw [core_outs] at e6
      exact e6.trans hsame

theorem scanBins_on (wf : List ℚ) (mu1 : Nat → ℚ) (iChan : Nat) (st0 : ScanState) (k : Nat) :
    ∀ (len j : Nat) (st : ScanState), OnInv wf k j st0 st → k ≤ j → j + len < ADCSIZE →
      (∀ i, j < i → i ≤ j + len → BS_UNCERTAINTY ≤ GetBinContent wf i) →
      OnInv wf k (j + len) st0 (scanBins wf mu1 iChan (List.range' (j + 1) len) st) := by
  intro len
  induction len with
  | zero => intro j st hinv _ _ _; exact hinv
  | succ len ih =>
    intro j st hinv hkj hlt hc
    have hstep := binStep_on wf mu1 iChan st0 st k j hinv hkj (hc (j + 1) (by omega) (by omega))
      (by omega)
    have := ih (j + 1) (binStep wf mu1 iChan st (j + 1)) hstep (by omega) (by omega)
      (fun i h1 h2 => hc i (by omega) (by omega))
    rw [List.range'_succ]
    have e : j + (len + 1) = j + 1 + len := by omega
    rw [e]
    exact this


theorem closePulse_outs_congr (wf : List ℚ) (mu1 : Nat → ℚ) (iChan : Nat) (st st' : ScanState)
    (iBin : Nat) (h1 : st.thresholdBin = st'.thresholdBin) (h2 : st.peakBin = st'.peakBin)
    (h3 : st.peak = st'.peak) (h4 : st.pulseEnergy = st'.pulseEnergy) (h5 : st.outs = st'.outs) :
    (closePulse wf mu1 iChan st iBin).outs = (closePulse wf mu1 iChan st' iBin).outs := by
  cases st
  cases st'
  simp only [ScanState.outs, Prod.mk.injEq, EventAcc.mk.injEq] at h1 h2 h3 h4 h5
  obtain ⟨h5a, h5b, h5c, h5d, h5e, h5f⟩ := h5
  subst h1 h2 h3 h4 h5a h5b h5c h5d h5e h5f
  unfold closePulse
  by_cases hch : iChan ≤ 11 <;> simp [hch, ScanState.outs]

theorem closePulse_onPulse (wf : List ℚ) (mu1 : Nat → ℚ) (iChan : Nat) (st : ScanState)
    (iBin : Nat) : (closePulse wf mu1 iChan st iBin).onPulse = false := by
  unfold closePulse
  by_cases hch : iChan ≤ 11 <;> simp [hch]

theorem binStep_close (wf : List ℚ) (mu1 : Nat → ℚ) (iChan : Nat) (acc : EventAcc)
    (st : ScanState) (k m j : Nat)
    (hinv : OnInv wf k j (ScanState.init acc) st) (hkj : k ≤ j) (hm : st.peakBin = m)
    (hk : PULSE_THRESHOLD ≤ GetBinContent wf k)
    (hc : GetBinContent wf (j + 1) < BS_UNCERTAINTY) :
    (binStep wf mu1 iChan st (j + 1)).onPulse = false ∧
    (binStep wf mu1 iChan st (j + 1)).outs =
      (closePulse wf mu1 iChan (closingState wf acc k m (j + 1)) (j + 1)).outs := by
  obtain ⟨hon, hthr, hge, hle, hval, hmax, hfirst, hen, hsame⟩ := hinv
  have hp : ¬ st.peak < GetBinContent wf (j + 1) := by
    have h1 := hmax k (le_refl _) hkj
    have h2 : BS_UNCERTAINTY < PULSE_THRESHOLD := by norm_num [BS_UNCERTAINTY, PULSE_THRESHOLD]
    exact not_lt.mpr (le_of_lt (lt_of_lt_of_le (lt_trans hc h2) (le_trans hk h1)))
  have hlow : ¬ PULSE_THRESHOLD ≤ GetBinContent wf (j + 1) := by
    have h2 : BS_UNCERTAINTY < PULSE_THRESHOLD := by norm_num [BS_UNCERTAINTY, PULSE_THRESHOLD]
    exact not_le.mpr (lt_trans hc h2)
  have hst : binStep wf mu1 iChan st (j + 1) =
      closePulse wf mu1 iChan
        { (if j + 1 > 15 then
            { st with allPulseEnergy := st.allPulseEnergy + GetBinContent wf (j + 1) }
           else st) with
          pulseEnergy := st.pulseEnergy + GetBinContent wf (j + 1) } (j + 1) := by
    unfold binStep
    by_cases h15 : j + 1 > 15 <;> simp [h15, hon, hc, hp]
  rw [hst]
  refine ⟨closePulse_onPulse _ _ _ _ _, ?_⟩
  apply closePulse_outs_congr
  · by_cases h15 : j + 1 > 15 <;> simp [h15, hthr, closingState]
  · by_cases h15 : j + 1 > 15 <;> simp [h15, hm, closingState]
  · by_cases h15 : j + 1 > 15 <;> simp [h15, hval, hm, closingState]
  · by_cases h15 : j + 1 > 15 <;>
      simp [h15, hen, closingState, Finset.sum_Icc_succ_top (show k ≤ j + 1 by omega)]
  · by_cases h15 : j + 1 > 15
    · simpa [h15, closingState, ScanState.outs] using hsame
    · simpa [h15, closingState, ScanState.outs] using hsame


theorem scanBins_append (wf : List ℚ) (mu1 : Nat → ℚ) (iChan : Nat) (a b : List Nat)
    (st : ScanState) :
    scanBins wf mu1 iChan (a ++ b) st = scanBins wf mu1 iChan b (scanBins wf mu1 iChan a st) := by
  unfold scanBins
  rw [List.foldl_append]

theorem scanBins_cons (wf : List ℚ) (mu1 : Nat → ℚ) (iChan : Nat) (a : Nat) (b : List Nat)
    (st : ScanState) :
    scanBins wf mu1 iChan (a :: b) st = scanBins wf mu1 iChan b (binStep wf mu1 iChan st a) := rfl

theorem range'_glue (a b x y : Nat) (h : b = a + x) :
    List.range' a x ++ List.range' b y = List.range' a (x + y) := by
  subst h
  rw [List.range'_append_1, Nat.add_comm]

theorem range'_split (k n : Nat) (hk : 1 ≤ k) (hkn : k < n) (hn : n ≤ ADCSIZE) :
    List.range' 1 ADCSIZE =
      List.range' 1 (k - 1) ++ (k :: (List.range' (k + 1) (n - 1 - k) ++
        (n :: List.range' (n + 1) (ADCSIZE - n)))) := by
  have e1 : n :: List.range' (n + 1) (ADCSIZE - n) = List.range' n (ADCSIZE - n + 1) := by
    rw [List.range'_succ]
  have e2 : List.range' (k + 1) (n - 1 - k) ++ List.range' n (ADCSIZE - n + 1) =
      List.range' (k + 1) (ADCSIZE - k) := by
    rw [range'_glue (k + 1) n (n - 1 - k) (ADCSIZE - n + 1) (by omega)]
    congr 1
    omega
  have e3 : k :: List.range' (k + 1) (ADCSIZE - k) = List.range' k (ADCSIZE - k + 1) := by
    rw [List.range'_succ]
  have e4 : List.range' 1 (k - 1) ++ List.range' k (ADCSIZE - k + 1) = List.range' 1 ADCSIZE := by
    rw [range'_glue 1 k (k - 1) (ADCSIZE - k + 1) (by omega)]
    congr 1
    omega
  rw [e1, e2, e3, e4]

/-- Outputs of the scan of a single-pulse waveform: those of closing, at bin `n`, the pulse
opened at bin `k` with its peak at bin `m`. -/
theorem scanChannel_single (wf : List ℚ) (mu1 : Nat → ℚ) (iChan : Nat) (acc : EventAcc)
    (k m n : Nat) (hsp : SinglePulse wf k n) (hpk : PeakAt wf k m n) :
    (scanChannel wf mu1 iChan acc).outs =
      (closePulse wf mu1 iChan (closingState wf acc k m n) n).outs := by
  obtain ⟨hk1, hkn, hn, hbefore, hk, hmid, hcn, hafter⟩ := hsp
  obtain ⟨hkm, hmn, hmmax, hmfirst⟩ := hpk
  unfold scanChannel
  rw [range'_split k n hk1 hkn hn, scanBins_append, scanBins_cons, scanBins_append,
    scanBins_cons]
  -- bins before `k`
  have h1 := scanBins_idle wf mu1 iChan (List.range' 1 (k - 1)) (ScanState.init acc) rfl
    (by
      intro i hi
      rw [List.mem_range'_1] at hi
      exact hbefore i hi.1 (by omega))
  generalize scanBins wf mu1 iChan (List.range' 1 (k - 1)) (ScanState.init acc) = s1 at h1
  have h1on : s1.onPulse = false := by
    have := congrArg ScanState.onPulse h1
    simpa only [core_onPulse] using this
  have h1outs : s1.outs = (ScanState.init acc).outs := by
    have := congrArg ScanState.outs h1
    simpa only [core_outs] using this
  -- bin `k`
  have h2 := binStep_open wf mu1 iChan s1 k h1on hk
  generalize binStep wf mu1 iChan s1 k = s2 at h2
  have h2' : OnInv wf k k (ScanState.init acc) s2 :=
    { h2 with same := h2.same.trans h1outs }
  -- bins `k+1 .. n-1`
  have h3 := scanBins_on wf mu1 iChan (ScanState.init acc) k (n - 1 - k) k s2 h2' (le_refl _)
    (by omega) (fun i hi1 hi2 => hmid i hi1 (by omega))
  generalize scanBins wf mu1 iChan (List.range' (k + 1) (n - 1 - k)) s2 = s3 at h3
  have hkn' : k + (n - 1 - k) = n - 1 := by omega
  rw [hkn'] at h3
  have hpeak : s3.peakBin = m := by
    have a1 := h3.pk_ge
    have a2 := h3.pk_le
    have a3 := h3.pk_val
    rcases Nat.lt_trichotomy s3.peakBin m with h | h | h
    · have b1 := hmfirst s3.peakBin a1 h
      have b2 := h3.pk_max m hkm (by omega)
      rw [a3] at b2
      exact absurd b1 (not_lt.mpr b2)
    · exact h
    · have b1 := h3.pk_first m hkm h
      have b2 := hmmax s3.peakBin a1 (by omega)
      rw [a3] at b1
      exact absurd b1 (not_lt.mpr b2)
  -- bin `n`
  have hn1 : n - 1 + 1 = n := by omega
  have h4 := binStep_close wf mu1 iChan acc s3 k m (n - 1) h3 (by omega) hpeak hk
    (by rw [hn1]; exact hcn)
  rw [hn1] at h4
  generalize binStep wf mu1 iChan s3 n = s4 at h4
  -- bins after `n`
  have h5 := scanBins_idle wf mu1 iChan (List.range' (n + 1) (ADCSIZE - n)) s4 h4.1
    (by
      intro i hi
      rw [List.mem_range'_1] at hi
      exact hafter i (by omega) (by omega))
  have h5outs := congrArg ScanState.outs h5
  simp only [core_outs] at h5outs
  rw [h5outs, h4.2]


theorem binTime_le {a b : Nat} (h : a ≤ b) : binTime a ≤ binTime b := by
  unfold binTime
  have : (a : ℚ) ≤ (b : ℚ) := by exact_mod_cast h
  linarith

theorem backwardWalk_succ_pos (wf : List ℚ) (peak : ℚ) (j : Nat) (acc : ℚ × ℚ)
    (h : BS_UNCERTAINTY < GetBinContent wf (j + 1)) :
    backwardWalk wf peak (j + 1) acc =
      backwardWalk wf peak j
        (if GetBinContent wf (j + 1) > peak * (1 / 10) then binTime (j + 1) else acc.1,
         acc.2 + GetBinContent wf (j + 1)) := by
  rw [backwardWalk]
  simp only [gt_iff_lt, h, if_true]

theorem backwardWalk_succ_neg (wf : List ℚ) (peak : ℚ) (j : Nat) (acc : ℚ × ℚ)
    (h : GetBinContent wf (j + 1) ≤ BS_UNCERTAINTY) :
    backwardWalk wf peak (j + 1) acc = acc := by
  rw [backwardWalk]
  simp only [gt_iff_lt, not_lt.mpr h, if_false]

/-- The walk never leaves the start later than both the initial start and its first bin. -/
theorem backwardWalk_start_le_max (wf : List ℚ) (peak : ℚ) :
    ∀ (j : Nat) (acc : ℚ × ℚ), (backwardWalk wf peak j acc).1 ≤ max acc.1 (binTime j) := by
  intro j
  induction j with
  | zero => intro acc; exact le_max_left _ _
  | succ j ih =>
    intro acc
    by_cases h : BS_UNCERTAINTY < GetBinContent wf (j + 1)
    · rw [backwardWalk_succ_pos wf peak j acc h]
      refine le_trans (ih _) ?_
      have hj : binTime j ≤ binTime (j + 1) := binTime_le (Nat.le_succ j)
      by_cases hp : GetBinContent wf (j + 1) > peak * (1 / 10)
      · simp only [hp, if_true]
        exact max_le (le_max_right _ _) (le_trans hj (le_max_right _ _))
      · simp only [hp, if_false]
        exact max_le (le_max_left _ _) (le_trans hj (le_max_right _ _))
    · rw [backwardWalk_succ_neg wf peak j acc (not_lt.mp h)]
      exact le_max_left _ _

/-- When the walk reaches bin `k` and the sample there exceeds 10% of the peak, the start
is not later than bin `k`. -/
theorem backwardWalk_start_reach (wf : List ℚ) (peak : ℚ) (k : Nat)
    (hk : peak * (1 / 10) < GetBinContent wf k) :
    ∀ (j : Nat) (acc : ℚ × ℚ), 1 ≤ k → k ≤ j →
      (∀ i, k ≤ i → i ≤ j → BS_UNCERTAINTY < GetBinContent wf i) →
      (backwardWalk wf peak j acc).1 ≤ binTime k := by
  intro j
  induction j with
  | zero => intro acc h1 h2; omega
  | succ j ih =>
    intro acc h1 h2 hall
    rw [backwardWalk_succ_pos wf peak j acc (hall (j + 1) h2 (le_refl _))]
    rcases Nat.lt_or_ge k (j + 1) with h | h
    · exact ih _ h1 (by omega) (fun i a b => hall i a (by omega))
    · have hkj : k = j + 1 := by omega
      subst hkj
      refine le_trans (backwardWalk_start_le_max wf peak j _) ?_
      simp only [gt_iff_lt, hk, if_true]
      exact max_le (le_refl _) (binTime_le (Nat.le_succ j))

/-- The walk started at bin `j` visits exactly the bins `w .. j`, where `w` is the lowest
bin such that all samples of bins `w .. j` exceed `BS_UNCERTAINTY`. -/
theorem backwardWalk_spec (wf : List ℚ) (peak : ℚ) :
    ∀ (j w : Nat) (acc : ℚ × ℚ), 1 ≤ w → w ≤ j + 1 →
      (∀ i, w ≤ i → i ≤ j → BS_UNCERTAINTY < GetBinContent wf i) →
      (w = 1 ∨ GetBinContent wf (w - 1) ≤ BS_UNCERTAINTY) →
      (backwardWalk wf peak j acc).2 = acc.2 + ∑ i in Finset.Icc w j, GetBinContent wf i ∧
      min acc.1 (binTime w) ≤ (backwardWalk wf peak j acc).1 ∧
      ((∀ i, w ≤ i → i ≤ j → peak * (1 / 10) < GetBinContent wf i) →
        (backwardWalk wf peak j acc).1 = if w ≤ j then binTime w else acc.1) := by
  intro j
  induction j with
  | zero =>
    intro w acc h1 h2 _ _
    have hw : w = 1 := by omega
    subst hw
    refine ⟨by simp [backwardWalk], min_le_left _ _, fun _ => by simp [backwardWalk]⟩
  | succ j ih =>
    intro w acc h1 h2 hall hstop
    rcases Nat.lt_or_ge (j + 1) w with h | h
    · have hw : w = j + 2 := by omega
      subst hw
      have hc : GetBinContent wf (j + 1) ≤ BS_UNCERTAINTY := by
        rcases hstop with h' | h'
        · omega
        · simpa using h'
      rw [backwardWalk_succ_neg wf peak j acc hc]
      refine ⟨by simp, min_le_left _ _, fun _ => by simp⟩
    · have hc := hall (j + 1) h (le_refl _)
      rw [backwardWalk_succ_pos wf peak j acc hc]
      obtain ⟨e1, e2, e3⟩ := ih w
        (if GetBinContent wf (j + 1) > peak * (1 / 10) then binTime (j + 1) else acc.1,
         acc.2 + GetBinContent wf (j + 1)) h1 h (fun i a b => hall i a (by omega)) hstop
      refine ⟨?_, ?_, ?_⟩
      · rw [e1, Finset.sum_Icc_succ_top (by omega)]
        simp only
        ring
      · refine le_trans ?_ e2
        have hwj : binTime w ≤ binTime (j + 1) := binTime_le h
        by_cases hp : GetBinContent wf (j + 1) > peak * (1 / 10)
        · simp only [hp, if_true]
          exact le_min (le_trans (min_le_right _ _) hwj) (min_le_right _ _)
        · simp only [hp, if_false]
          exact le_refl _
      · intro hten
        rw [e3 (fun i a b => hten i a (by omega))]
        have hp : GetBinContent wf (j + 1) > peak * (1 / 10) := hten (j + 1) h (le_refl _)
        simp only [hp, if_true, h]
        by_cases hwj : w ≤ j
        · simp [hwj]
        · have : w = j + 1 := by omega
          simp [this]


theorem closingState_pulses (wf : List ℚ) (mu1 : Nat → ℚ) (iChan : Nat) (acc : EventAcc)
    (k m n : Nat) :
    (closePulse wf mu1 iChan (closingState wf acc k m n) n).outs.1 =
      [{ start := (backwardWalk wf (GetBinContent wf m) (m - 1)
            (binTime k, ∑ i in Finset.Icc k n, GetBinContent wf i)).1
         end_ := binTime n
         peak := if iChan ≤ 11 ∧ mu1 iChan > 0 then GetBinContent wf m / mu1 iChan
                 else GetBinContent wf m
         energy := if iChan ≤ 11 then
                     some (if mu1 iChan > 0 then
                       (backwardWalk wf (GetBinContent wf m) (m - 1)
                         (binTime k, ∑ i in Finset.Icc k n, GetBinContent wf i)).2 / mu1 iChan
                       else 0)
                   else none }] := by
  unfold closePulse
  by_cases hch : iChan ≤ 11 <;> simp [hch, closingState, ScanState.outs, ScanState.init]

theorem outs_fst (st : ScanState) : st.outs.1 = st.pulses_temp := rfl

/-! ## Channel pulse finder: single-pulse waveforms -/

/-- Witness for C1: the all-zero 45-sample waveform has no sample at or above the
threshold, and its scan emits no candidate. -/
theorem no_pulse_below_threshold_witness :
    wfQuiet.length = ADCSIZE ∧ (∀ x ∈ wfQuiet, x < PULSE_THRESHOLD) ∧
    (scanChannel wfQuiet gainOne 0 acc0).pulses_temp = [] :=
  ⟨by decide, by simp [wfQuiet, PULSE_THRESHOLD],
    (no_pulse_below_threshold wfQuiet gainOne 0 acc0 (by decide)
      (by simp [wfQuiet, PULSE_THRESHOLD])).1⟩

/-- C2, amended. On every waveform on which the forward scan opens exactly one pulse
(threshold crossing at bin `k`, closing at bin `n`, peak at bin `m`) the finder returns
exactly one candidate. Its recorded start is at most the time of bin `max k (m - 1)`; it
is at most the time of bin `k` when every sample strictly between `k` and `m` exceeds
`BS_UNCERTAINTY` and the sample at `k` exceeds 10% of the peak (in particular when the
peak is at `k`). The walk starts at bin `m - 1` and re-assigns the start to every walked
bin above 10% of the peak, so the start may lie after the threshold crossing. -/
theorem single_pulse_start (wf : List ℚ) (mu1 : Nat → ℚ) (iChan : Nat) (acc : EventAcc)
    (k m n : Nat) (hsp : SinglePulse wf k n) (hpk : PeakAt wf k m n) :
    ∃ pt, (scanChannel wf mu1 iChan acc).pulses_temp = [pt] ∧
      pt.start ≤ binTime (max k (m - 1)) ∧
      ((∀ i, k < i → i < m → BS_UNCERTAINTY < GetBinContent wf i) →
        GetBinContent wf m * (1 / 10) < GetBinContent wf k → pt.start ≤ binTime k) := by
  have h := congrArg Prod.fst (scanChannel_single wf mu1 iChan acc k m n hsp hpk)
  rw [outs_fst, closingState_pulses] at h
  refine ⟨_, h, ?_, ?_⟩
  · refine le_trans (backwardWalk_start_le_max wf _ (m - 1) _) ?_
    exact max_le (binTime_le (le_max_left _ _)) (binTime_le (le_max_right _ _))
  · intro hall hten
    obtain ⟨hk1, hkn, hn, hbefore, hk, hmid, hcn, hafter⟩ := hsp
    obtain ⟨hkm, -⟩ := hpk
    rcases Nat.lt_or_ge k m with hlt | hge
    · have hk5 : BS_UNCERTAINTY < GetBinContent wf k := by
        have h1 : BS_UNCERTAINTY < PULSE_THRESHOLD := by
          norm_num [BS_UNCERTAINTY, PULSE_THRESHOLD]
        exact lt_of_lt_of_le h1 hk
      refine backwardWalk_start_reach wf _ k hten (m - 1) _ hk1 (by omega) ?_
      intro i h1 h2
      rcases Nat.eq_or_lt_of_le h1 with e | e
      · rw [← e]; exact hk5
      · exact hall i e (by omega)
    · have hmk : m = k := by omega
      subst hmk
      refine le_trans (backwardWalk_start_le_max wf _ (m - 1) _) ?_
      exact max_le (le_refl _) (binTime_le (Nat.sub_le _ _))


theorem wfSteep_single : SinglePulse wfSteep 1 4 := by
  have hafter : ∀ i, i < 46 → 4 < i → GetBinContent wfSteep i < PULSE_THRESHOLD := by decide!
  refine ⟨by decide, by decide, by decide, ?_, by decide!, ?_, by decide!, ?_⟩
  · intro i h1 h2; omega
  · intro i h1 h2
    interval_cases i <;> decide!
  · intro i h1 h2
    exact hafter i (by unfold ADCSIZE at h2; omega) h1

theorem wfSteep_peak : PeakAt wfSteep 1 3 4 := by
  refine ⟨by decide, by decide, ?_, ?_⟩
  · intro i h1 h2
    interval_cases i <;> decide!
  · intro i h1 h2
    interval_cases i <;> decide!

/-- Counterexample to C2 as stated. The 45-sample waveform 30, 200, 1000, 0, ... opens
one pulse at bin 1 and closes it at bin 4; the single candidate starts at bin 2
(0.032 µs), later than the threshold crossing at bin 1 (0.016 µs): the sample 30 at bin 1
is not above 10% of the peak 1000. -/
theorem start_after_crossing :
    wfSteep.length = ADCSIZE ∧ SinglePulse wfSteep 1 4 ∧
    ∃ pt, (scanChannel wfSteep gainOne 0 acc0).pulses_temp = [pt] ∧
      ¬ pt.start ≤ (1 : ℚ) * 16 / 1000 := by
  refine ⟨by decide, wfSteep_single, ⟨binTime 2, binTime 4, 1000, some 1460⟩, by decide!,
    by decide!⟩

/-- Witness for C2 amended, at the waveform 30, 200, 1000, 0, ... with `k = 1`, `m = 3`,
`n = 4`. -/
theorem single_pulse_start_witness :
    ∃ pt, (scanChannel wfSteep gainOne 0 acc0).pulses_temp = [pt] ∧
      pt.start ≤ binTime (max 1 (3 - 1)) ∧
      ((∀ i, 1 < i → i < 3 → BS_UNCERTAINTY < GetBinContent wfSteep i) →
        GetBinContent wfSteep 3 * (1 / 10) < GetBinContent wfSteep 1 → pt.start ≤ binTime 1) :=
  single_pulse_start wfSteep gainOne 0 acc0 1 3 4 wfSteep_single wfSteep_peak

/-- C3, amended. On a primary channel with gain `> 0`, for every single-pulse waveform
whose peak is the threshold-crossing sample (`m = k`), the candidate's energy is the gain
conversion of the sum of the samples of bins `w .. n`, each counted once, where `w <= k`
is the lowest bin reached by the backward walk (all samples of bins `w .. k-1` exceed
`BS_UNCERTAINTY`, and `w = 1` or the sample at `w - 1` does not). The recorded start lies
between bins `w` and `k`, and it is bin `w` (so that the energy is the sum from the
recorded start through `n`) when every walked sample exceeds 10% of the peak. -/
theorem single_pulse_energy (wf : List ℚ) (mu1 : Nat → ℚ) (iChan : Nat) (acc : EventAcc)
    (k n w : Nat) (hsp : SinglePulse wf k n) (hpk : PeakAt wf k k n)
    (hch : iChan ≤ 11) (hgain : 0 < mu1 iChan)
    (hw1 : 1 ≤ w) (hwk : w ≤ k)
    (hwalk : ∀ i, w ≤ i → i < k → BS_UNCERTAINTY < GetBinContent wf i)
    (hstop : w = 1 ∨ GetBinContent wf (w - 1) ≤ BS_UNCERTAINTY) :
    ∃ pt, (scanChannel wf mu1 iChan acc).pulses_temp = [pt] ∧
      pt.energy = some ((∑ i in Finset.Icc w n, GetBinContent wf i) / mu1 iChan) ∧
      binTime w ≤ pt.start ∧ pt.start ≤ binTime k ∧
      ((∀ i, w ≤ i → i < k → GetBinContent wf k * (1 / 10) < GetBinContent wf i) →
        pt.start = binTime w) := by
  have h := congrArg Prod.fst (scanChannel_single wf mu1 iChan acc k k n hsp hpk)
  rw [outs_fst, closingState_pulses] at h
  obtain ⟨hk1, hkn, hn, hbefore, hk, hmid, hcn, hafter⟩ := hsp
  obtain ⟨e1, e2, e3⟩ := backwardWalk_spec wf (GetBinContent wf k) (k - 1) w
    (binTime k, ∑ i in Finset.Icc k n, GetBinContent wf i) hw1 (by omega)
    (fun i a b => hwalk i a (by omega)) hstop
  refine ⟨_, h, ?_, ?_, ?_, ?_⟩
  · have hsplit : ∑ i in Finset.Icc w n, GetBinContent wf i =
        ∑ i in Finset.Icc w (k - 1), GetBinContent wf i +
          ∑ i in Finset.Icc k n, GetBinContent wf i := by
      have hd : Finset.Icc w n = Finset.Icc w (k - 1) ∪ Finset.Icc k n := by
        ext i
        simp only [Finset.mem_Icc, Finset.mem_union]
        omega
      rw [hd, Finset.sum_union]
      rw [Finset.disjoint_left]
      intro i hi1 hi2
      simp only [Finset.mem_Icc] at hi1 hi2
      omega
    simp only [hch, hgain, if_true, gt_iff_lt, e1, hsplit]
    rw [add_comm]
  · refine le_trans ?_ e2
    exact le_min (binTime_le hwk) (le_refl _)
  · refine le_trans (backwardWalk_start_le_max wf _ (k - 1) _) ?_
    exact max_le (le_refl _) (binTime_le (Nat.sub_le _ _))
  · intro hten
    show (backwardWalk wf (GetBinContent wf k) (k - 1) _).1 = binTime w
    rw [e3 (fun i a b => hten i a (by omega))]
    by_cases hwk' : w ≤ k - 1
    · simp [hwk']
    · have : w = k := by omega
      simp [hwk', this]

theorem wfFoot_single : SinglePulse wfFoot 2 3 := by
  have hafter : ∀ i, i < 46 → 3 < i → GetBinContent wfFoot i < PULSE_THRESHOLD := by decide!
  refine ⟨by decide, by decide, by decide, ?_, by decide!, ?_, by decide!, ?_⟩
  · intro i h1 h2
    interval_cases i; decide!
  · intro i h1 h2; omega
  · intro i h1 h2
    exact hafter i (by unfold ADCSIZE at h2; omega) h1

theorem wfFoot_peak : PeakAt wfFoot 2 2 3 := by
  refine ⟨by decide, by decide, ?_, ?_⟩
  · intro i h1 h2
    interval_cases i; decide!
  · intro i h1 h2; omega

/-- Counterexample to C3 as stated. The 45-sample waveform 10, 200, 0, ... has one pulse
(crossing and peak at bin 2, closing at bin 3). Its recorded start stays at bin 2, since
the sample 10 at bin 1 is not above 10% of the peak, but the walk adds that sample to the
energy: with gain 1 the energy is 210, not the sum 200 of bins 2 .. 3. -/
theorem energy_beyond_recorded_start :
    wfFoot.length = ADCSIZE ∧ SinglePulse wfFoot 2 3 ∧ PeakAt wfFoot 2 2 3 ∧
    ∃ pt, (scanChannel wfFoot gainOne 0 acc0).pulses_temp = [pt] ∧
      pt.start = binTime 2 ∧
      pt.energy ≠ some ((∑ i in Finset.Icc 2 3, GetBinContent wfFoot i) / gainOne 0) := by
  refine ⟨by decide, wfFoot_single, wfFoot_peak, ⟨binTime 2, binTime 3, 200, some 210⟩,
    by decide!, rfl, by decide!⟩

/-- Witness for C3 amended, at the waveform 10, 200, 0, ... with `k = 2`, `n = 3`,
`w = 1` and gain 1. -/
theorem single_pulse_energy_witness :
    ∃ pt, (scanChannel wfFoot gainOne 0 acc0).pulses_temp = [pt] ∧
      pt.energy = some ((∑ i in Finset.Icc 1 3, GetBinContent wfFoot i) / gainOne 0) ∧
      binTime 1 ≤ pt.start ∧ pt.start ≤ binTime 2 ∧
      ((∀ i, 1 ≤ i → i < 2 → GetBinContent wfFoot 2 * (1 / 10) < GetBinContent wfFoot i) →
        pt.start = binTime 1) :=
  single_pulse_energy wfFoot gainOne 0 acc0 2 3 1 wfFoot_single wfFoot_peak (by decide)
    (by decide!) (by decide) (by decide)
    (by intro i h1 h2; interval_cases i; decide!) (Or.inl rfl)

/-! ## Gain conversion -/

/-- C4, amended. When a pulse closes on a primary channel (`iChan <= 11`): if the gain
is `> 0`, peak and energy of the candidate are the raw peak and the raw integrated energy
(`pulseEnergy` after the backward walk) divided by the gain; if the gain is not `> 0`,
the peak is kept raw, the energy is set to 0 and the multiplicity `number` is unchanged.
The same peak and energy are appended to `all_chan_peak` and `all_chan_energy`. -/
theorem gain_conversion (wf : List ℚ) (mu1 : Nat → ℚ) (iChan : Nat) (st : ScanState)
    (iBin : Nat) (hch : iChan ≤ 11) :
    ∃ pt, (closePulse wf mu1 iChan st iBin).pulses_temp = st.pulses_temp ++ [pt] ∧
      (mu1 iChan > 0 →
        pt.peak = st.peak / mu1 iChan ∧
        pt.energy = some ((backwardWalk wf st.peak (st.peakBin - 1)
          (binTime st.thresholdBin, st.pulseEnergy)).2 / mu1 iChan)) ∧
      (¬ mu1 iChan > 0 →
        pt.peak = st.peak ∧ pt.energy = some 0 ∧
        (closePulse wf mu1 iChan st iBin).number = st.number) ∧
      (closePulse wf mu1 iChan st iBin).all_chan_peak = st.all_chan_peak ++ [pt.peak] ∧
      (closePulse wf mu1 iChan st iBin).all_chan_energy.map some =
        st.all_chan_energy.map some ++ [pt.energy] := by
  unfold closePulse
  simp only [hch, if_true, true_and]
  refine ⟨_, rfl, ?_, ?_, rfl, ?_⟩
  · intro hg
    simp only [hg, if_true, and_self]
  · intro hg
    simp only [hg, if_false, true_and]
    have : ¬ ((0 : ℚ) > 1) := by norm_num
    simp only [this, if_false]
  · simp only [List.map_append, List.map_cons, List.map_nil]

/-- Witness for C4 amended: closing the pulse of the waveform 10, 200, 0, ... on
channel 0 with gain 1. -/
theorem gain_conversion_witness :
    ∃ pt, (closePulse wfFoot gainOne 0 (closingState wfFoot acc0 2 2 3) 3).pulses_temp =
        (closingState wfFoot acc0 2 2 3).pulses_temp ++ [pt] ∧
      (gainOne 0 > 0 →
        pt.peak = (closingState wfFoot acc0 2 2 3).peak / gainOne 0 ∧
        pt.energy = some ((backwardWalk wfFoot (closingState wfFoot acc0 2 2 3).peak
          ((closingState wfFoot acc0 2 2 3).peakBin - 1)
          (binTime (closingState wfFoot acc0 2 2 3).thresholdBin,
            (closingState wfFoot acc0 2 2 3).pulseEnergy)).2 / gainOne 0)) ∧
      (¬ gainOne 0 > 0 →
        pt.peak = (closingState wfFoot acc0 2 2 3).peak ∧ pt.energy = some 0 ∧
        (closePulse wfFoot gainOne 0 (closingState wfFoot acc0 2 2 3) 3).number =
          (closingState wfFoot acc0 2 2 3).number) ∧
      (closePulse wfFoot gainOne 0 (closingState wfFoot acc0 2 2 3) 3).all_chan_peak =
        (closingState wfFoot acc0 2 2 3).all_chan_peak ++ [pt.peak] ∧
      (closePulse wfFoot gainOne 0 (closingState wfFoot acc0 2 2 3) 3).all_chan_energy.map some =
        (closingState wfFoot acc0 2 2 3).all_chan_energy.map some ++ [pt.energy] :=
  gain_conversion wfFoot gainOne 0 (closingState wfFoot acc0 2 2 3) 3 (by decide)

/-- Counterexample to C4 as stated. The waveform 10, 200, 0, ... on channel 0: with
gain 1 the candidate has peak 200 and energy 210 (the raw values); with gain 0 the peak
is kept at 200 but the energy is 0, not the raw integrated energy 210. -/
theorem uncalibrated_energy_is_zero :
    (scanChannel wfFoot gainOne 0 acc0).pulses_temp =
      [{ start := binTime 2, end_ := binTime 3, peak := 200, energy := some 210 }] ∧
    (scanChannel wfFoot gainZero 0 acc0).pulses_temp =
      [{ start := binTime 2, end_ := binTime 3, peak := 200, energy := some 0 }] ∧
    (scanChannel wfFoot gainZero 0 acc0).all_chan_energy = [0] := by
  decide!

/-! ## Event classifier: rules -/

theorem sipm_hit_iff (e : List ℚ) :
    sipm_hit e = true ↔ ∃ i, i < 10 ∧ e.getD i 0 > SIPM_THRESHOLDS.getD i 0 := by
  unfold sipm_hit
  rw [List.any_eq_true]
  constructor
  · rintro ⟨i, hi, h⟩
    exact ⟨i, List.mem_range.mp hi, of_decide_eq_true h⟩
  · rintro ⟨i, hi, h⟩
    exact ⟨i, List.mem_range.mpr hi, decide_eq_true h⟩

theorem sipm_low_iff (e : List ℚ) :
    sipm_low e = true ↔ ∀ i, i < 10 → ¬ e.getD i 0 > SIPM_THRESHOLDS.getD i 0 := by
  unfold sipm_low
  rw [List.all_eq_true]
  constructor
  · intro h i hi hgt
    have := h i (List.mem_range.mpr hi)
    rw [decide_eq_true hgt] at this
    exact absurd this (by decide)
  · intro h i hi
    have := h i (List.mem_range.mp hi)
    rw [decide_eq_false this]
    rfl

theorem sipm_low_of_hit (e : List ℚ) (h : sipm_hit e = true) : sipm_low e = false := by
  rw [sipm_hit_iff] at h
  obtain ⟨i, hi, hgt⟩ := h
  by_contra hne
  have hl : sipm_low e = true := by simpa using hne
  exact (sipm_low_iff e).mp hl i hi hgt

theorem muon_rule_hit (p : pulse) (e : List ℚ) (b : Bool) (h : muon_rule p e b = true) :
    sipm_hit e = true := by
  unfold muon_rule at h
  simp only [Bool.or_eq_true, Bool.and_eq_true] at h
  rcases h with h | h
  · exact h.2
  · exact h.2

theorem not_michel_of_hit (p : pulse) (e : List ℚ) (dt : ℚ) (h : sipm_hit e = true) :
    is_michel_candidate p e dt = false := by
  unfold is_michel_candidate
  simp [sipm_low_of_hit e h]

theorem not_michel_for_dt_of_hit (p : pulse) (e : List ℚ) (dt : ℚ) (h : sipm_hit e = true) :
    is_michel_for_dt p e dt = false := by
  unfold is_michel_for_dt
  simp [not_michel_of_hit p e dt h]

theorem is_michel_candidate_iff (p : pulse) (e : List ℚ) (dt : ℚ) :
    is_michel_candidate p e dt = true ↔
      (40 ≤ p.energy ∧ p.energy ≤ 1000 ∧ (76 : ℚ) / 100 ≤ dt ∧ dt ≤ 16 ∧ 8 ≤ p.number ∧
        (∀ i, i < 10 → ¬ e.getD i 0 > SIPM_THRESHOLDS.getD i 0) ∧
        p.trigger ≠ 1 ∧ p.trigger ≠ 4 ∧ p.trigger ≠ 8 ∧ p.trigger ≠ 16) := by
  unfold is_michel_candidate
  simp only [Bool.and_eq_true, decide_eq_true_eq, sipm_low_iff, MICHEL_ENERGY_MIN,
    MICHEL_ENERGY_MAX, MICHEL_DT_MIN, MICHEL_DT_MAX, ge_iff_le]
  tauto

theorem classifyStep_eq_ref (st : DatasetState) (ev : EventData) :
    classifyStep st ev = classifyStepRef st ev := by
  unfold classifyStep classifyStepRef muonStep
  by_cases hm : muon_rule (initRecord st ev) ev.sipm_energies ev.pulse_at_end = true
  · have hh := muon_rule_hit _ _ _ hm
    simp only [hm, if_true]
    unfold michelStep michelStepRef
    simp [not_michel_of_hit _ _ _ hh, not_michel_for_dt_of_hit _ _ _ hh]
  · simp only [hm, if_false]
    rfl

theorem foldl_classify_eq_ref (events : List EventData) :
    ∀ st, events.foldl classifyStep st = events.foldl classifyStepRef st := by
  induction events with
  | nil => intro st; rfl
  | cons ev evs ih =>
    intro st
    simp only [List.foldl_cons, classifyStep_eq_ref, ih]

/-- C7. For every ordered event sequence, the classifier as coded (which computes `dt`
after the muon rule has updated `last_muon_time`) and the reference classifier (which
measures `dt` against the `last_muon_time` held before the event's muon rule ran) give the
same `is_michel` flags, the same time-difference entries and the same Michel-attribution
set; indeed the same final state. An event accepted as a muon has a sensor panel above
threshold, so it fails the Michel rule under either `dt`. -/
theorem dt_since_previous_muon (events : List EventData) :
    (processFile events).records.map pulse.is_michel =
      (processFileRef events).records.map pulse.is_michel ∧
    (processFile events).h_dt_michel = (processFileRef events).h_dt_michel ∧
    (processFile events).michel_muon_times = (processFileRef events).michel_muon_times ∧
    processFile events = processFileRef events := by
  have h : processFile events = processFileRef events := by
    unfold processFile processFileRef
    rw [foldl_classify_eq_ref]
  rw [h]
  exact ⟨rfl, rfl, rfl, rfl⟩

/-! ## Event classifier: one step -/

theorem muon_rule_iff (p : pulse) (e : List ℚ) (b : Bool) :
    muon_rule p e b = true ↔
      ((p.energy > 50 ∧ ∃ i, i < 10 ∧ e.getD i 0 > SIPM_THRESHOLDS.getD i 0) ∨
       (b = true ∧ p.energy > 25 ∧ ∃ i, i < 10 ∧ e.getD i 0 > SIPM_THRESHOLDS.getD i 0)) := by
  unfold muon_rule
  simp only [Bool.or_eq_true, Bool.and_eq_true, decide_eq_true_eq, sipm_hit_iff,
    MUON_ENERGY_THRESHOLD]
  have h25 : (50 : ℚ) / 2 = 25 := by norm_num
  rw [h25]
  generalize (∃ i, i < 10 ∧ e.getD i 0 > SIPM_THRESHOLDS.getD i 0) = H
  tauto

theorem initRecord_start (st : DatasetState) (ev : EventData) :
    (initRecord st ev).start = ev.p.start := rfl
theorem initRecord_energy (st : DatasetState) (ev : EventData) :
    (initRecord st ev).energy = ev.p.energy := rfl
theorem initRecord_number (st : DatasetState) (ev : EventData) :
    (initRecord st ev).number = ev.p.number := rfl
theorem initRecord_trigger (st : DatasetState) (ev : EventData) :
    (initRecord st ev).trigger = ev.p.trigger := rfl
theorem initRecord_is_muon (st : DatasetState) (ev : EventData) :
    (initRecord st ev).is_muon = false := rfl
theorem initRecord_is_michel (st : DatasetState) (ev : EventData) :
    (initRecord st ev).is_michel = false := rfl

/-- The step on an event that the muon rule accepts. -/
theorem classifyStep_of_muon (st : DatasetState) (ev : EventData)
    (hm : muon_rule (initRecord st ev) ev.sipm_energies ev.pulse_at_end = true) :
    classifyStep st ev =
      { st with
        num_events := st.num_events + 1
        last_muon_time := ev.p.start
        num_muons := st.num_muons + 1
        muon_candidates := st.muon_candidates ++ [(ev.p.start, ev.p.energy)]
        h_side_sipm_muon := st.h_side_sipm_muon ++ [ev.p.side_sipm_energy]
        h_top_sipm_muon := st.h_top_sipm_muon ++ [ev.p.top_sipm_energy]
        records := st.records ++
          [{ initRecord st ev with is_muon := true, last_muon_time := ev.p.start }] } := by
  have hh := muon_rule_hit _ _ _ hm
  unfold classifyStep muonStep
  simp only [hm, if_true]
  unfold michelStep
  simp only [not_michel_of_hit _ _ _ hh, not_michel_for_dt_of_hit _ _ _ hh,
    Bool.false_eq_true, if_false]
  rfl

/-- The step on an event that the muon rule rejects. -/
theorem classifyStep_of_not_muon (st : DatasetState) (ev : EventData)
    (hm : ¬ muon_rule (initRecord st ev) ev.sipm_energies ev.pulse_at_end = true) :
    classifyStep st ev =
      michelStep { st with num_events := st.num_events + 1 } ev (initRecord st ev) := by
  unfold classifyStep muonStep
  simp only [hm, Bool.false_eq_true, if_false]

theorem michelStep_of_not_cand (st : DatasetState) (ev : EventData) (p : pulse)
    (hc : is_michel_candidate p ev.sipm_energies (p.start - st.last_muon_time) = false) :
    michelStep st ev p =
      { st with records := st.records ++ [{ p with last_muon_time := st.last_muon_time }] } := by
  have hd : is_michel_for_dt p ev.sipm_energies (p.start - st.last_muon_time) = false := by
    rw [is_michel_for_dt, hc]; rfl
  unfold michelStep
  simp only [hc, hd, Bool.false_eq_true, if_false]

theorem michelStep_of_cand (st : DatasetState) (ev : EventData) (p : pulse)
    (hc : is_michel_candidate p ev.sipm_energies (p.start - st.last_muon_time) = true) :
    michelStep st ev p =
      { st with
        num_michels := st.num_michels + 1
        michel_muon_times := insert st.last_muon_time st.michel_muon_times
        h_energy_vs_dt := st.h_energy_vs_dt ++ [(p.start - st.last_muon_time, p.energy)]
        h_michel_energy := st.h_michel_energy ++ [p.energy]
        h_dt_michel := st.h_dt_michel ++
          (if p.energy ≤ 400 then [p.start - st.last_muon_time] else [])
        records := st.records ++
          [{ p with is_michel := true, last_muon_time := st.last_muon_time }] } := by
  by_cases h400 : p.energy ≤ 400
  · have hd : is_michel_for_dt p ev.sipm_energies (p.start - st.last_muon_time) = true := by
      rw [is_michel_for_dt, hc]; simp [MICHEL_ENERGY_MAX_DT, h400]
    unfold michelStep
    simp only [hc, hd, if_true, h400]
  · have hd : is_michel_for_dt p ev.sipm_energies (p.start - st.last_muon_time) = false := by
      rw [is_michel_for_dt, hc]; simp [MICHEL_ENERGY_MAX_DT, h400]
    unfold michelStep
    simp only [hc, hd, if_true, h400, Bool.false_eq_true, if_false, List.append_nil]


/-- C5. For every classifier state (in particular every `last_muon_time`) and every
event record, the step appends one record, whose `is_michel` flag is set if and only if
40 <= energy <= 1000, 0.76 <= dt <= 16 (both bounds inclusive), multiplicity >= 8, none
of the 10 sensor panels exceeds its threshold and the trigger code is none of 1, 4, 8, 16,
where `dt` is the event start minus the `last_muon_time` in force after the muon rule;
and `dt` is appended to the time-difference distribution if and only if the event is
accepted and energy <= 400. -/
theorem michel_rule (st : DatasetState) (ev : EventData) :
    ∃ r, (classifyStep st ev).records = st.records ++ [r] ∧
      (r.is_michel = true ↔
        (40 ≤ ev.p.energy ∧ ev.p.energy ≤ 1000 ∧
         (76 : ℚ) / 100 ≤ ev.p.start - (classifyStep st ev).last_muon_time ∧
         ev.p.start - (classifyStep st ev).last_muon_time ≤ 16 ∧
         8 ≤ ev.p.number ∧
         (∀ i, i < 10 → ¬ ev.sipm_energies.getD i 0 > SIPM_THRESHOLDS.getD i 0) ∧
         ev.p.trigger ≠ 1 ∧ ev.p.trigger ≠ 4 ∧ ev.p.trigger ≠ 8 ∧ ev.p.trigger ≠ 16)) ∧
      (classifyStep st ev).h_dt_michel =
        st.h_dt_michel ++
          (if r.is_michel = true ∧ ev.p.energy ≤ 400 then
            [ev.p.start - (classifyStep st ev).last_muon_time] else []) := by
  by_cases hm : muon_rule (initRecord st ev) ev.sipm_energies ev.pulse_at_end = true
  · have hh := muon_rule_hit _ _ _ hm
    have hnl : ¬ ∀ i, i < 10 → ¬ ev.sipm_energies.getD i 0 > SIPM_THRESHOLDS.getD i 0 := by
      rw [← sipm_low_iff, sipm_low_of_hit _ hh]
      exact Bool.false_ne_true
    rw [classifyStep_of_muon st ev hm]
    refine ⟨_, rfl, ?_, ?_⟩
    · constructor
      · intro h
        exact absurd h Bool.false_ne_true
      · intro h
        exact absurd h.2.2.2.2.2.1 hnl
    · have hf : ¬ ((false = true) ∧ ev.p.energy ≤ 400) := fun h => Bool.false_ne_true h.1
      show st.h_dt_michel = st.h_dt_michel ++ (if (false = true) ∧ ev.p.energy ≤ 400 then _ else [])
      rw [if_neg hf, List.append_nil]
  · rw [classifyStep_of_not_muon st ev hm]
    by_cases hc : is_michel_candidate (initRecord st ev) ev.sipm_energies
        ((initRecord st ev).start - st.last_muon_time) = true
    · have hc' := (is_michel_candidate_iff _ _ _).mp hc
      rw [michelStep_of_cand { st with num_events := st.num_events + 1 } ev (initRecord st ev) hc]
      refine ⟨_, rfl, ?_, ?_⟩
      · constructor
        · intro _
          exact hc'
        · intro _
          rfl
      · show st.h_dt_michel ++ (if ev.p.energy ≤ 400 then [ev.p.start - st.last_muon_time] else [])
          = st.h_dt_michel ++ (if (true = true) ∧ ev.p.energy ≤ 400 then
              [ev.p.start - st.last_muon_time] else [])
        simp only [true_and]
    · have hcf : is_michel_candidate (initRecord st ev) ev.sipm_energies
          ((initRecord st ev).start - st.last_muon_time) = false := by simpa using hc
      have hc' := (not_congr (is_michel_candidate_iff _ _ _)).mp hc
      rw [michelStep_of_not_cand { st with num_events := st.num_events + 1 } ev (initRecord st ev)
        hcf]
      refine ⟨_, rfl, ?_, ?_⟩
      · constructor
        · intro h
          exact absurd h Bool.false_ne_true
        · intro h
          exact absurd h hc'
      · have hf : ¬ ((false = true) ∧ ev.p.energy ≤ 400) := fun h => Bool.false_ne_true h.1
        show st.h_dt_michel = st.h_dt_michel ++ (if (false = true) ∧ ev.p.energy ≤ 400 then _ else [])
        rw [if_neg hf, List.append_nil]

/-- C6. For every classifier state and event record, the step appends one record whose
`is_muon` flag is set if and only if (energy > 50 and some sensor panel exceeds its
threshold) or (pulse-at-end and energy > 25 and some sensor panel exceeds its threshold).
When it is set, `last_muon_time` becomes the event start, `num_muons` grows by one and
(start, energy) is appended to `muon_candidates`; when it is not, all three are
unchanged. -/
theorem muon_rule_update (st : DatasetState) (ev : EventData) :
    ∃ r, (classifyStep st ev).records = st.records ++ [r] ∧
      (r.is_muon = true ↔
        ((ev.p.energy > 50 ∧ ∃ i, i < 10 ∧ ev.sipm_energies.getD i 0 > SIPM_THRESHOLDS.getD i 0) ∨
         (ev.pulse_at_end = true ∧ ev.p.energy > 25 ∧
           ∃ i, i < 10 ∧ ev.sipm_energies.getD i 0 > SIPM_THRESHOLDS.getD i 0))) ∧
      (r.is_muon = true →
        (classifyStep st ev).last_muon_time = ev.p.start ∧
        (classifyStep st ev).num_muons = st.num_muons + 1 ∧
        (classifyStep st ev).muon_candidates =
          st.muon_candidates ++ [(ev.p.start, ev.p.energy)]) ∧
      (r.is_muon = false →
        (classifyStep st ev).last_muon_time = st.last_muon_time ∧
        (classifyStep st ev).num_muons = st.num_muons ∧
        (classifyStep st ev).muon_candidates = st.muon_candidates) := by
  have hiff := muon_rule_iff (initRecord st ev) ev.sipm_energies ev.pulse_at_end
  by_cases hm : muon_rule (initRecord st ev) ev.sipm_energies ev.pulse_at_end = true
  · have hcond := hiff.mp hm
    rw [classifyStep_of_muon st ev hm]
    refine ⟨_, rfl, ⟨fun _ => hcond, fun _ => rfl⟩, fun _ => ⟨rfl, rfl, rfl⟩, ?_⟩
    intro h
    exact absurd h Bool.noConfusion
  · have hcond := (not_congr hiff).mp hm
    rw [classifyStep_of_not_muon st ev hm]
    by_cases hc : is_michel_candidate (initRecord st ev) ev.sipm_energies
        ((initRecord st ev).start - st.last_muon_time) = true
    · rw [michelStep_of_cand { st with num_events := st.num_events + 1 } ev (initRecord st ev) hc]
      refine ⟨_, rfl, ⟨fun h => absurd h Bool.false_ne_true, fun h => absurd h hcond⟩,
        fun h => absurd h Bool.false_ne_true, fun _ => ⟨rfl, rfl, rfl⟩⟩
    · have hcf : is_michel_candidate (initRecord st ev) ev.sipm_energies
          ((initRecord st ev).start - st.last_muon_time) = false := by simpa using hc
      rw [michelStep_of_not_cand { st with num_events := st.num_events + 1 } ev (initRecord st ev)
        hcf]
      refine ⟨_, rfl, ⟨fun h => absurd h Bool.false_ne_true, fun h => absurd h hcond⟩,
        fun h => absurd h Bool.false_ne_true, fun _ => ⟨rfl, rfl, rfl⟩⟩

/-! ## Two-pass muon/Michel association -/

theorem assocInv_init : AssocInv DatasetState.init := by
  refine ⟨rfl, ?_, rfl⟩
  intro t
  simp [DatasetState.init]

theorem assocInv_step (st : DatasetState) (ev : EventData) (h : AssocInv st) :
    AssocInv (classifyStep st ev) := by
  obtain ⟨h1, h2, h3⟩ := h
  by_cases hm : muon_rule (initRecord st ev) ev.sipm_energies ev.pulse_at_end = true
  · rw [classifyStep_of_muon st ev hm]
    refine ⟨?_, ?_, h3⟩
    · show st.muon_candidates ++ [(ev.p.start, ev.p.energy)] = _
      rw [List.filter_append, List.map_append, ← h1]
      rfl
    · intro t
      show t ∈ st.michel_muon_times ↔ _
      rw [h2 t]
      constructor
      · rintro ⟨r, hr, hr'⟩
        exact ⟨r, List.mem_append_left _ hr, hr'⟩
      · rintro ⟨r, hr, hr'⟩
        rcases List.mem_append.mp hr with hr1 | hr1
        · exact ⟨r, hr1, hr'⟩
        · rw [List.mem_singleton] at hr1
          rw [hr1] at hr'
          exact absurd hr'.1 Bool.false_ne_true
  · rw [classifyStep_of_not_muon st ev hm]
    by_cases hc : is_michel_candidate (initRecord st ev) ev.sipm_energies
        ((initRecord st ev).start - st.last_muon_time) = true
    · rw [michelStep_of_cand { st with num_events := st.num_events + 1 } ev (initRecord st ev) hc]
      refine ⟨?_, ?_, h3⟩
      · show st.muon_candidates = _
        rw [List.filter_append, List.map_append, ← h1]
        simp [initRecord_is_muon]
      · intro t
        show t ∈ insert st.last_muon_time st.michel_muon_times ↔ _
        rw [Finset.mem_insert, h2 t]
        constructor
        · rintro (ht | ⟨r, hr, hr'⟩)
          · exact ⟨_, List.mem_append_right _ (List.mem_singleton.mpr rfl), rfl, ht.symm⟩
          · exact ⟨r, List.mem_append_left _ hr, hr'⟩
        · rintro ⟨r, hr, hr'⟩
          rcases List.mem_append.mp hr with hr1 | hr1
          · exact Or.inr ⟨r, hr1, hr'⟩
          · rw [List.mem_singleton] at hr1
            rw [hr1] at hr'
            exact Or.inl hr'.2.symm
    · have hcf : is_michel_candidate (initRecord st ev) ev.sipm_energies
          ((initRecord st ev).start - st.last_muon_time) = false := by simpa using hc
      rw [michelStep_of_not_cand { st with num_events := st.num_events + 1 } ev (initRecord st ev)
        hcf]
      refine ⟨?_, ?_, h3⟩
      · show st.muon_candidates = _
        rw [List.filter_append, List.map_append, ← h1]
        simp [initRecord_is_muon]
      · intro t
        show t ∈ st.michel_muon_times ↔ _
        rw [h2 t]
        constructor
        · rintro ⟨r, hr, hr'⟩
          exact ⟨r, List.mem_append_left _ hr, hr'⟩
        · rintro ⟨r, hr, hr'⟩
          rcases List.mem_append.mp hr with hr1 | hr1
          · exact ⟨r, hr1, hr'⟩
          · rw [List.mem_singleton] at hr1
            rw [hr1] at hr'
            exact absurd hr'.1 Bool.false_ne_true

theorem assocInv_foldl (events : List EventData) :
    ∀ st, AssocInv st → AssocInv (events.foldl classifyStep st) := by
  induction events with
  | nil => intro st h; exact h
  | cons ev evs ih =>
    intro st h
    exact ih _ (assocInv_step st ev h)

theorem secondPass_fold (s : Finset ℚ) (l : List (ℚ × ℚ)) :
    ∀ h : List ℚ,
      l.foldl (fun h muon => if muon.1 ∈ s then h ++ [muon.2] else h) h =
        h ++ (l.filter (fun muon => decide (muon.1 ∈ s))).map Prod.snd := by
  induction l with
  | nil => intro h; simp
  | cons a l ih =>
    intro h
    rw [List.foldl_cons, ih]
    by_cases ha : a.1 ∈ s
    · simp [ha, List.filter_cons]
    · simp [ha, List.filter_cons]

/-- Outputs of a dataset in terms of its classified records. -/
theorem processFile_assoc (events : List EventData) :
    (processFile events).h_muon_energy =
      ((processFile events).records.filter
        (fun r => r.is_muon && decide (r.start ∈ (processFile events).michel_muon_times))).map
        pulse.energy ∧
    (∀ t, t ∈ (processFile events).michel_muon_times ↔
      ∃ r ∈ (processFile events).records, r.is_michel = true ∧ r.last_muon_time = t) := by
  obtain ⟨h1, h2, h3⟩ := assocInv_foldl events _ assocInv_init
  unfold processFile
  generalize events.foldl classifyStep DatasetState.init = R at h1 h2 h3
  refine ⟨?_, h2⟩
  show R.muon_candidates.foldl _ R.h_muon_energy = (R.records.filter _).map _
  rw [secondPass_fold, h3, h1, List.nil_append, List.filter_map, List.map_map, List.filter_filter]
  have hf : (fun a : pulse => ((fun muon : ℚ × ℚ => decide (muon.1 ∈ R.michel_muon_times)) ∘
      fun r : pulse => (r.start, r.energy)) a && a.is_muon) =
      (fun r : pulse => r.is_muon && decide (r.start ∈ (secondPass R).michel_muon_times)) := by
    funext r
    exact Bool.and_comm _ _
  rw [hf]
  rfl

/-! ## Association results -/

/-- C8, amended. For every dataset the muon-energy distribution receives exactly the
energies of the accepted muons whose timestamp is in the Michel-attribution set, and a
time is in that set exactly when it is the `last_muon_time` recorded with some accepted
Michel candidate. Hence a muon at `t0` with a Michel candidate whose `dt` is measured
against `t0` has `t0` in the set and contributes its energy, and every contributed energy
is that of a muon whose timestamp equals the `last_muon_time` of some Michel candidate
(the association is by timestamp value). One muon at t = 0 (energy 200) then one Michel at
t = 2.0 gives `num_muons = 1`, `num_michels = 1`, muon energies `[200]`, dt entries
`[2.0]`. -/
theorem two_pass_association (events : List EventData) :
    (processFile events).h_muon_energy =
      ((processFile events).records.filter
        (fun r => r.is_muon && decide (r.start ∈ (processFile events).michel_muon_times))).map
        pulse.energy ∧
    (∀ t, t ∈ (processFile events).michel_muon_times ↔
      ∃ r ∈ (processFile events).records, r.is_michel = true ∧ r.last_muon_time = t) ∧
    (∀ rm ∈ (processFile events).records, rm.is_muon = true →
      ∀ rc ∈ (processFile events).records, rc.is_michel = true →
        rc.last_muon_time = rm.start →
        rm.start ∈ (processFile events).michel_muon_times ∧
        rm.energy ∈ (processFile events).h_muon_energy) ∧
    (∀ e ∈ (processFile events).h_muon_energy,
      ∃ rm ∈ (processFile events).records, rm.is_muon = true ∧ rm.energy = e ∧
        ∃ rc ∈ (processFile events).records, rc.is_michel = true ∧
          rc.last_muon_time = rm.start) ∧
    ((processFile dsMuonMichel).num_muons = 1 ∧ (processFile dsMuonMichel).num_michels = 1 ∧
      (processFile dsMuonMichel).h_muon_energy = [200] ∧
      (processFile dsMuonMichel).h_dt_michel = [2]) := by
  obtain ⟨h1, h2⟩ := processFile_assoc events
  refine ⟨h1, h2, ?_, ?_, by decide!⟩
  · intro rm hrm hmu rc hrc hmi hlt
    have hin : rm.start ∈ (processFile events).michel_muon_times := (h2 _).mpr ⟨rc, hrc, hmi, hlt⟩
    refine ⟨hin, ?_⟩
    rw [h1, List.mem_map]
    refine ⟨rm, ?_, rfl⟩
    rw [List.mem_filter]
    refine ⟨hrm, ?_⟩
    rw [Bool.and_eq_true]
    exact ⟨hmu, decide_eq_true hin⟩
  · intro e he
    rw [h1, List.mem_map] at he
    obtain ⟨rm, hrm, hre⟩ := he
    rw [List.mem_filter, Bool.and_eq_true] at hrm
    obtain ⟨rc, hrc, hmi, hlt⟩ := (h2 _).mp (of_decide_eq_true hrm.2.2)
    exact ⟨rm, hrm.1, hrm.2.1, hre, rc, hrc, hmi, hlt⟩

/-- Counterexample to C8 as stated. Muon at t = 5 (energy 200), Michel candidate at
t = 7, then a second muon at the same timestamp t = 5 (energy 300) that no event follows:
the second muon has no subsequent Michel candidate, yet its energy 300 is contributed.
Likewise with both muons at t = 5 before the Michel candidate: the candidate is measured
against the most recent muon (energy 300), and the earlier one (energy 200) contributes
too. -/
theorem unattributed_muon_contributes :
    ((processFile dsRepeatAfter).records.map (fun r => (r.start, r.energy, r.is_muon, r.is_michel))
        = [(5, 200, true, false), (7, 100, false, true), (5, 300, true, false)] ∧
      (processFile dsRepeatAfter).h_muon_energy = [200, 300]) ∧
    ((processFile dsRepeatBefore).records.map
        (fun r => (r.start, r.energy, r.is_muon, r.is_michel))
        = [(5, 200, true, false), (5, 300, true, false), (7, 100, false, true)] ∧
      (processFile dsRepeatBefore).h_muon_energy = [200, 300]) := by
  decide!

/-- C9, the code at the failing input. On a dataset whose first and only event is
Michel-qualifying with start 2.0 µs, the event is accepted as a Michel candidate with
`dt = 2.0` measured against the initial `last_muon_time = 0.0`, and 0.0 is inserted into
the Michel-attribution set, although no muon was accepted (`num_muons = 0`). -/
theorem michel_before_first_muon :
    (processFile dsNoMuon).records.map (fun r => (r.is_muon, r.is_michel, r.last_muon_time))
      = [(false, true, 0)] ∧
    (processFile dsNoMuon).num_muons = 0 ∧
    (processFile dsNoMuon).muon_candidates = [] ∧
    (processFile dsNoMuon).num_michels = 1 ∧
    (processFile dsNoMuon).michel_muon_times = {0} ∧
    (processFile dsNoMuon).h_dt_michel = [2] := by
  decide!

/-! ## Timing consensus -/

theorem countIncr_mem (val : ℚ) :
    ∀ m : List (ℚ × Nat), m.Pairwise (fun a b => a.1 < b.1) →
      (countIncr val m).Pairwise (fun a b => a.1 < b.1) ∧
      ∀ p, p ∈ countIncr val m ↔
        ((p ∈ m ∧ p.1 ≠ val) ∨
         (p.1 = val ∧ ((∃ c, (val, c) ∈ m ∧ p.2 = c + 1) ∨ ((∀ c, (val, c) ∉ m) ∧ p.2 = 1)))) := by
  intro m
  induction m with
  | nil =>
    intro _
    refine ⟨by simp [countIncr], ?_⟩
    intro p
    obtain ⟨x, c⟩ := p
    simp [countIncr]
  | cons a rest ih =>
    intro hs
    obtain ⟨k, c⟩ := a
    have hs' := List.pairwise_cons.mp hs
    have hrest : ∀ q ∈ rest, k < q.1 := hs'.1
    obtain ⟨ihs, ihm⟩ := ih hs'.2
    by_cases h1 : val < k
    · have hnk : ∀ q ∈ (k, c) :: rest, val < q.1 := by
        intro q hq
        rcases List.mem_cons.mp hq with e | e
        · rw [e]; exact h1
        · exact lt_trans h1 (hrest q e)
      have hno : ∀ c', (val, c') ∉ (k, c) :: rest := fun c' hc => lt_irrefl _ (hnk _ hc)
      have hce : countIncr val ((k, c) :: rest) = (val, 1) :: (k, c) :: rest := by
        simp [countIncr, h1]
      rw [hce]
      refine ⟨List.pairwise_cons.mpr ⟨hnk, hs⟩, ?_⟩
      intro p
      obtain ⟨x, d⟩ := p
      rw [List.mem_cons]
      constructor
      · rintro (e | e)
        · simp only [Prod.mk.injEq] at e
          exact Or.inr ⟨e.1, Or.inr ⟨hno, e.2⟩⟩
        · exact Or.inl ⟨e, ne_of_gt (hnk _ e)⟩
      · rintro (⟨e, _⟩ | ⟨e1, (⟨c', hc', _⟩ | ⟨_, e2⟩)⟩)
        · exact Or.inr e
        · exact absurd hc' (hno c')
        · left
          simp only at e1 e2
          rw [e1, e2]
    · by_cases h2 : k < val
      · have hce : countIncr val ((k, c) :: rest) = (k, c) :: countIncr val rest := by
          simp [countIncr, h1, h2]
        rw [hce]
        have hkv : k ≠ val := ne_of_lt h2
        refine ⟨List.pairwise_cons.mpr ⟨?_, ihs⟩, ?_⟩
        · intro q hq
          rcases (ihm q).mp hq with ⟨e, _⟩ | ⟨e, _⟩
          · exact hrest q e
          · rw [e]; exact h2
        · intro p
          obtain ⟨x, d⟩ := p
          rw [List.mem_cons, ihm]
          have hval : ∀ c', (val, c') ∈ (k, c) :: rest ↔ (val, c') ∈ rest := by
            intro c'
            rw [List.mem_cons]
            constructor
            · rintro (e | e)
              · simp only [Prod.mk.injEq] at e
                exact absurd e.1.symm hkv
              · exact e
            · intro e; exact Or.inr e
          simp only [hval, List.mem_cons]
          constructor
          · rintro (e | ⟨e, e'⟩ | e)
            · left
              simp only [Prod.mk.injEq] at e
              refine ⟨Or.inl ?_, ?_⟩
              · rw [e.1, e.2]
              · show x ≠ val
                rw [e.1]; exact hkv
            · exact Or.inl ⟨Or.inr e, e'⟩
            · exact Or.inr e
          · rintro (⟨e | e, e'⟩ | e)
            · exact Or.inl e
            · exact Or.inr (Or.inl ⟨e, e'⟩)
            · exact Or.inr (Or.inr e)
      · have hkv : k = val := le_antisymm (not_lt.mp h1) (not_lt.mp h2)
        have hce : countIncr val ((k, c) :: rest) = (k, c + 1) :: rest := by
          simp [countIncr, h1, h2]
        rw [hce]
        subst hkv
        have hno : ∀ c', (k, c') ∉ rest := fun c' hc => lt_irrefl _ (hrest _ hc)
        refine ⟨List.pairwise_cons.mpr ⟨hrest, hs'.2⟩, ?_⟩
        intro p
        obtain ⟨x, d⟩ := p
        have hval : ∀ c', (k, c') ∈ (k, c) :: rest ↔ c' = c := by
          intro c'
          rw [List.mem_cons]
          constructor
          · rintro (e | e)
            · simp only [Prod.mk.injEq] at e
              exact e.2
            · exact absurd e (hno c')
          · intro e; left; rw [e]
        rw [List.mem_cons]
        constructor
        · rintro (e | e)
          · simp only [Prod.mk.injEq] at e
            exact Or.inr ⟨e.1, Or.inl ⟨c, (hval c).mpr rfl, e.2⟩⟩
          · exact Or.inl ⟨List.mem_cons_of_mem _ e, ne_of_gt (hrest _ e)⟩
        · rintro (⟨e, e'⟩ | ⟨e1, (⟨c', e2, e3⟩ | ⟨e2, _⟩)⟩)
          · rcases List.mem_cons.mp e with e'' | e''
            · simp only [Prod.mk.injEq] at e''
              exact absurd e''.1 e'
            · exact Or.inr e''
          · left
            have hc' := (hval c').mp e2
            simp only at e1 e3
            rw [e1, e3, hc']
          · exact absurd ((hval c).mpr rfl) (e2 c)


theorem countIncr_rep (val : ℚ) (m : List (ℚ × Nat)) (l : List ℚ) (h : CountRep m l) :
    CountRep (countIncr val m) (l ++ [val]) := by
  obtain ⟨hs, hm⟩ := h
  obtain ⟨hs', hm'⟩ := countIncr_mem val m hs
  refine ⟨hs', ?_⟩
  intro p
  obtain ⟨x, d⟩ := p
  rw [hm']
  have hcount : ∀ y, (l ++ [val]).count y = l.count y + (if y = val then 1 else 0) := by
    intro y
    rw [List.count_append]
    by_cases hy : y = val
    · simp [hy]
    · have : ¬ val = y := fun e => hy e.symm
      simp [hy, List.count_cons, this]
  simp only [hm, hcount, List.mem_append, List.mem_singleton]
  constructor
  · rintro (⟨⟨e1, e2⟩, e3⟩ | ⟨e1, (⟨c, ⟨_, e3⟩, e4⟩ | ⟨e2, e3⟩)⟩)
    · exact ⟨Or.inl e1, by simp [e2, e3]⟩
    · refine ⟨Or.inr e1, ?_⟩
      rw [e4, e3, e1]
      simp
    · refine ⟨Or.inr e1, ?_⟩
      have hnot : val ∉ l := fun hv => e2 (l.count val) ⟨hv, rfl⟩
      rw [e3, e1, List.count_eq_zero_of_not_mem hnot]
      simp
  · rintro ⟨e1, e2⟩
    by_cases hx : x = val
    · right
      refine ⟨hx, ?_⟩
      rw [hx] at e2
      by_cases hv : val ∈ l
      · left
        exact ⟨l.count val, ⟨hv, rfl⟩, by simpa using e2⟩
      · right
        refine ⟨fun c hc => hv hc.1, ?_⟩
        rw [e2, List.count_eq_zero_of_not_mem hv]
        simp
    · left
      rcases e1 with e1 | e1
      · exact ⟨⟨e1, by simpa [hx] using e2⟩, hx⟩
      · exact absurd e1 hx

theorem countMap_foldl_rep (v : List ℚ) :
    ∀ (m : List (ℚ × Nat)) (l : List ℚ), CountRep m l →
      CountRep (v.foldl (fun m val => countIncr val m) m) (l ++ v) := by
  induction v with
  | nil => intro m l h; simpa using h
  | cons a v ih =>
    intro m l h
    have := ih (countIncr a m) (l ++ [a]) (countIncr_rep a m l h)
    simpa using this

theorem countMap_rep (v : List ℚ) : CountRep (countMap v) v := by
  have h0 : CountRep [] [] := ⟨List.Pairwise.nil, by simp⟩
  simpa [countMap] using countMap_foldl_rep v [] [] h0

/-- The scan keeps a maximal count, and what it returns is the start value or an entry. -/
theorem scan_spec (m : List (ℚ × Nat)) :
    ∀ acc : ℚ × Nat,
      acc.2 ≤ (m.foldl scanStep acc).2 ∧
      (∀ p ∈ m, p.2 ≤ (m.foldl scanStep acc).2) ∧
      (m.foldl scanStep acc = acc ∨ m.foldl scanStep acc ∈ m) := by
  induction m with
  | nil => intro acc; simp
  | cons a m ih =>
    intro acc
    obtain ⟨h1, h2, h3⟩ := ih (scanStep acc a)
    have hstep : acc.2 ≤ (scanStep acc a).2 ∧ a.2 ≤ (scanStep acc a).2 ∧
        (scanStep acc a = acc ∨ scanStep acc a = a) := by
      unfold scanStep
      by_cases hgt : a.2 > acc.2
      · rw [if_pos hgt]
        exact ⟨le_of_lt hgt, le_refl _, Or.inr rfl⟩
      · rw [if_neg hgt]
        exact ⟨le_refl _, not_lt.mp hgt, Or.inl rfl⟩
    rw [List.foldl_cons]
    refine ⟨le_trans hstep.1 h1, ?_, ?_⟩
    · intro p hp
      rcases List.mem_cons.mp hp with e | e
      · rw [e]; exact le_trans hstep.2.1 h1
      · exact h2 p e
    · rcases h3 with e | e
      · rcases hstep.2.2 with e' | e'
        · left; rw [e, e']
        · right; rw [e, e']; exact List.mem_cons_self _ _
      · right; exact List.mem_cons_of_mem _ e

theorem getAverage_eq (v : List ℚ) (hne : v ≠ []) :
    getAverage v = v.sum / (v.length : ℚ) := by
  unfold getAverage
  have : v.isEmpty = false := by
    cases v with
    | nil => exact absurd rfl hne
    | cons a l => rfl
  rw [this]
  simp only [Bool.false_eq_true, if_false]
  rw [List.sum_eq_foldl]

/-- C10. For every non-empty list of times: when some value occurs at least twice,
`mostFrequent` returns a value of the list whose occurrence count is maximal; when no
value repeats it returns the arithmetic mean of all values. For the empty list it
returns 0, so that the event start equals the trigger time `nsTime / 1000` when no
primary-channel pulse was found. -/
theorem mostFrequent_spec (v : List ℚ) :
    (v ≠ [] → (∃ x ∈ v, 2 ≤ v.count x) →
      mostFrequent v ∈ v ∧ ∀ y, v.count y ≤ v.count (mostFrequent v)) ∧
    (v ≠ [] → (∀ x ∈ v, v.count x < 2) → mostFrequent v = v.sum / (v.length : ℚ)) ∧
    mostFrequent [] = 0 ∧
    (∀ (nsTime triggerBits : ℤ) (last_muon_time : ℚ) (es : EventState),
      es.acc.all_chan_start = [] →
      (aggregate nsTime triggerBits last_muon_time es).start = (nsTime : ℚ) / 1000) := by
  refine ⟨?_, ?_, rfl, ?_⟩
  · intro hne hrep
    cases v with
    | nil => exact absurd rfl hne
    | cons v0 l =>
      obtain ⟨hs, hm⟩ := countMap_rep (v0 :: l)
      obtain ⟨h1, h2, h3⟩ := scan_spec (countMap (v0 :: l)) (v0, 0)
      obtain ⟨x, hx, hx2⟩ := hrep
      have hxm : (x, (v0 :: l).count x) ∈ countMap (v0 :: l) := (hm _).mpr ⟨hx, rfl⟩
      have hbig : 2 ≤ ((countMap (v0 :: l)).foldl scanStep (v0, 0)).2 :=
        le_trans hx2 (h2 _ hxm)
      have hmem : (countMap (v0 :: l)).foldl scanStep (v0, 0) ∈ countMap (v0 :: l) := by
        rcases h3 with e | e
        · rw [e] at hbig
          simp at hbig
        · exact e
      have hval : mostFrequent (v0 :: l) = ((countMap (v0 :: l)).foldl scanStep (v0, 0)).1 := by
        show (if ((countMap (v0 :: l)).foldl scanStep (v0, 0)).2 > 1 then _ else _) = _
        rw [if_pos (by omega)]
      obtain ⟨hin, hcnt⟩ := (hm _).mp hmem
      rw [hval]
      refine ⟨hin, ?_⟩
      intro y
      rw [← hcnt]
      by_cases hy : y ∈ v0 :: l
      · exact h2 _ ((hm (y, (v0 :: l).count y)).mpr ⟨hy, rfl⟩)
      · rw [List.count_eq_zero_of_not_mem hy]
        exact Nat.zero_le _
  · intro hne hnorep
    cases v with
    | nil => exact absurd rfl hne
    | cons v0 l =>
      obtain ⟨hs, hm⟩ := countMap_rep (v0 :: l)
      obtain ⟨h1, h2, h3⟩ := scan_spec (countMap (v0 :: l)) (v0, 0)
      have hsmall : ¬ ((countMap (v0 :: l)).foldl scanStep (v0, 0)).2 > 1 := by
        rcases h3 with e | e
        · rw [e]; simp
        · obtain ⟨hin, hcnt⟩ := (hm _).mp e
          have := hnorep _ hin
          omega
      have hval : mostFrequent (v0 :: l) = getAverage (v0 :: l) := by
        show (if ((countMap (v0 :: l)).foldl scanStep (v0, 0)).2 > 1 then _ else _) = _
        rw [if_neg hsmall]
      rw [hval, getAverage_eq _ hne]
  · intro nsTime triggerBits lmt es hes
    show (nsTime : ℚ) / 1000 + mostFrequent es.acc.all_chan_start = _
    rw [hes]
    show (nsTime : ℚ) / 1000 + 0 = _
    rw [add_zero]

/-- Witness for C10: the list 3, 1, 3, 1, 2 (a repeated value) and the list 3, 1, 2 (no
repeated value). -/
theorem mostFrequent_spec_witness :
    mostFrequent [3, 1, 3, 1, 2] ∈ ([3, 1, 3, 1, 2] : List ℚ) ∧
    (∀ y, ([3, 1, 3, 1, 2] : List ℚ).count y ≤
      ([3, 1, 3, 1, 2] : List ℚ).count (mostFrequent [3, 1, 3, 1, 2])) ∧
    mostFrequent [3, 1, 2] = ([3, 1, 2] : List ℚ).sum / (([3, 1, 2] : List ℚ).length : ℚ) :=
  ⟨((mostFrequent_spec [3, 1, 3, 1, 2]).1 (by decide) ⟨3, by decide, by decide⟩).1,
   ((mostFrequent_spec [3, 1, 3, 1, 2]).1 (by decide) ⟨3, by decide, by decide⟩).2,
   (mostFrequent_spec [3, 1, 2]).2.1 (by decide) (by decide)⟩

/-! ## Channel pulse finder: every waveform -/

theorem binTime_lt {a b : Nat} (h : a < b) : binTime a < binTime b := by
  unfold binTime
  have : (a : ℚ) < (b : ℚ) := by exact_mod_cast h
  linarith

theorem closePulse_pulses (wf : List ℚ) (mu1 : Nat → ℚ) (iChan : Nat) (st : ScanState)
    (iBin : Nat) :
    ∃ pt, (closePulse wf mu1 iChan st iBin).pulses_temp = st.pulses_temp ++ [pt] ∧
      pt.end_ = binTime iBin ∧
      pt.start = (backwardWalk wf st.peak (st.peakBin - 1)
        (binTime st.thresholdBin, st.pulseEnergy)).1 := by
  unfold closePulse
  by_cases hch : iChan ≤ 11
  · simp only [hch, if_true]
    exact ⟨_, rfl, rfl, rfl⟩
  · simp only [hch, if_false]
    exact ⟨_, rfl, rfl, rfl⟩

/-- The four branches of the loop body. -/
theorem binStep_cases (wf : List ℚ) (mu1 : Nat → ℚ) (iChan : Nat) (st : ScanState) (i : Nat) :
    (st.onPulse = false ∧ GetBinContent wf i < PULSE_THRESHOLD ∧
      (binStep wf mu1 iChan st i).onPulse = false ∧
      (binStep wf mu1 iChan st i).pulses_temp = st.pulses_temp) ∨
    (st.onPulse = false ∧ PULSE_THRESHOLD ≤ GetBinContent wf i ∧
      (binStep wf mu1 iChan st i).onPulse = true ∧
      (binStep wf mu1 iChan st i).thresholdBin = i ∧
      (binStep wf mu1 iChan st i).peakBin = i ∧
      (binStep wf mu1 iChan st i).pulses_temp = st.pulses_temp) ∨
    (st.onPulse = true ∧ ¬ (GetBinContent wf i < BS_UNCERTAINTY ∨ i = ADCSIZE) ∧
      (binStep wf mu1 iChan st i).onPulse = true ∧
      (binStep wf mu1 iChan st i).thresholdBin = st.thresholdBin ∧
      ((binStep wf mu1 iChan st i).peakBin = st.peakBin ∨
        (binStep wf mu1 iChan st i).peakBin = i) ∧
      (binStep wf mu1 iChan st i).pulses_temp = st.pulses_temp) ∨
    (st.onPulse = true ∧ (GetBinContent wf i < BS_UNCERTAINTY ∨ i = ADCSIZE) ∧
      (binStep wf mu1 iChan st i).onPulse = false ∧
      ∃ (pk : ℚ) (pb : Nat) (e : ℚ) (pt : pulse_temp), (pb = st.peakBin ∨ pb = i) ∧
        (binStep wf mu1 iChan st i).pulses_temp = st.pulses_temp ++ [pt] ∧
        pt.end_ = binTime i ∧
        pt.start = (backwardWalk wf pk (pb - 1) (binTime st.thresholdBin, e)).1) := by
  cases hon : st.onPulse
  · by_cases hc : PULSE_THRESHOLD ≤ GetBinContent wf i
    · right; left
      have hinv := binStep_open wf mu1 iChan st i hon hc
      have hs := congrArg Prod.fst hinv.same
      exact ⟨rfl, hc, hinv.isOn, hinv.thr, le_antisymm hinv.pk_le hinv.pk_ge, hs⟩
    · left
      have hlt := not_le.mp hc
      have h := binStep_idle wf mu1 iChan st i hon hlt
      have e1 := congrArg ScanState.onPulse h
      have e2 := congrArg ScanState.pulses_temp h
      simp only [core_onPulse, core_pulses_temp] at e1 e2
      exact ⟨rfl, hlt, e1.trans hon, e2⟩
  · right; right
    by_cases hclose : GetBinContent wf i < BS_UNCERTAINTY ∨ i = ADCSIZE
    · right
      refine ⟨rfl, hclose, ?_⟩
      by_cases hp : st.peak < GetBinContent wf i
      · have hst : binStep wf mu1 iChan st i =
            closePulse wf mu1 iChan
              { (if i > 15 then
                  { st with allPulseEnergy := st.allPulseEnergy + GetBinContent wf i }
                 else st) with
                pulseEnergy := st.pulseEnergy + GetBinContent wf i
                peak := GetBinContent wf i, peakBin := i } i := by
          unfold binStep
          by_cases h15 : i > 15 <;> simp [h15, hon, hclose, hp]
        rw [hst]
        obtain ⟨pt, h1, h2, h3⟩ := closePulse_pulses wf mu1 iChan _ i
        refine ⟨closePulse_onPulse _ _ _ _ _, GetBinContent wf i, i,
          st.pulseEnergy + GetBinContent wf i, pt, Or.inr rfl, ?_, h2, ?_⟩
        · rw [h1]
          by_cases h15 : i > 15 <;> simp [h15]
        · rw [h3]
          by_cases h15 : i > 15 <;> simp [h15]
      · have hst : binStep wf mu1 iChan st i =
            closePulse wf mu1 iChan
              { (if i > 15 then
                  { st with allPulseEnergy := st.allPulseEnergy + GetBinContent wf i }
                 else st) with
                pulseEnergy := st.pulseEnergy + GetBinContent wf i } i := by
          unfold binStep
          by_cases h15 : i > 15 <;> simp [h15, hon, hclose, hp]
        rw [hst]
        obtain ⟨pt, h1, h2, h3⟩ := closePulse_pulses wf mu1 iChan _ i
        refine ⟨closePulse_onPulse _ _ _ _ _, st.peak, st.peakBin,
          st.pulseEnergy + GetBinContent wf i, pt, Or.inl rfl, ?_, h2, ?_⟩
        · rw [h1]
          by_cases h15 : i > 15 <;> simp [h15]
        · rw [h3]
          by_cases h15 : i > 15 <;> simp [h15]
    · left
      refine ⟨rfl, hclose, ?_⟩
      have hc5 : ¬ GetBinContent wf i < BS_UNCERTAINTY := fun h => hclose (Or.inl h)
      have hne : ¬ i = ADCSIZE := fun h => hclose (Or.inr h)
      unfold binStep
      by_cases hp : st.peak < GetBinContent wf i <;> by_cases h15 : i > 15 <;>
        simp [h15, hon, hc5, hne, hp]


/-- The walk never moves the start to or before a bin `n` whose sample does not exceed
`BS_UNCERTAINTY` (or before the first bin). -/
theorem backwardWalk_start_ge (wf : List ℚ) (peak : ℚ) (n : Nat)
    (hn : n = 0 ∨ GetBinContent wf n ≤ BS_UNCERTAINTY) :
    ∀ (j : Nat) (acc : ℚ × ℚ), n ≤ j → binTime (n + 1) ≤ acc.1 →
      binTime (n + 1) ≤ (backwardWalk wf peak j acc).1 := by
  intro j
  induction j with
  | zero => intro acc _ h; exact h
  | succ j ih =>
    intro acc hnj hacc
    by_cases hc : BS_UNCERTAINTY < GetBinContent wf (j + 1)
    · rw [backwardWalk_succ_pos wf peak j acc hc]
      have hnj' : n ≤ j := by
        rcases hn with h | h
        · omega
        · rcases Nat.lt_or_ge n (j + 1) with h' | h'
          · omega
          · have he : n = j + 1 := by omega
            rw [he] at h
            exact absurd hc (not_lt.mpr h)
      apply ih _ hnj'
      by_cases hp : GetBinContent wf (j + 1) > peak * (1 / 10)
      · simp only [hp, if_true]
        exact binTime_le (by omega)
      · simp only [hp, if_false]
        exact hacc
    · rw [backwardWalk_succ_neg wf peak j acc (not_lt.mp hc)]
      exact hacc

theorem chainInv_step (wf : List ℚ) (mu1 : Nat → ℚ) (iChan : Nat) (st : ScanState) (j : Nat)
    (hj : j + 1 ≤ ADCSIZE) (hinv : ChainInv wf j st) :
    ChainInv wf (j + 1) (binStep wf mu1 iChan st (j + 1)) := by
  obtain ⟨n, hnj, hn, hpts, hpw, hon⟩ := hinv
  rcases binStep_cases wf mu1 iChan st (j + 1) with
    ⟨_, _, h1, h2⟩ | ⟨_, _, h1, h2, h3, h4⟩ | ⟨h0, _, h1, h2, h3, h4⟩ |
    ⟨h0, hclose, h1, pk, pb, e, pt, hpb, h2, h3, h4⟩
  · refine ⟨n, by omega, hn, by rw [h2]; exact hpts, by rw [h2]; exact hpw, ?_⟩
    intro h
    rw [h1] at h
    exact absurd h Bool.false_ne_true
  · refine ⟨n, by omega, hn, by rw [h4]; exact hpts, by rw [h4]; exact hpw, ?_⟩
    intro _
    rw [h2, h3]
    exact ⟨by omega, le_refl _, le_refl _⟩
  · obtain ⟨a1, a2, a3⟩ := hon h0
    refine ⟨n, by omega, hn, by rw [h4]; exact hpts, by rw [h4]; exact hpw, ?_⟩
    intro _
    rw [h2]
    rcases h3 with h3 | h3
    · rw [h3]; exact ⟨a1, a2, by omega⟩
    · rw [h3]; exact ⟨a1, by omega, le_refl _⟩
  · obtain ⟨a1, a2, a3⟩ := hon h0
    have hn' : n = 0 ∨ GetBinContent wf n ≤ BS_UNCERTAINTY := by
      rcases hn with h | h | h
      · exact Or.inl h
      · exact Or.inr (le_of_lt h)
      · omega
    have hpbge : st.thresholdBin ≤ pb := by
      rcases hpb with h | h
      · rw [h]; exact a2
      · rw [h]; omega
    have hpble : pb ≤ j + 1 := by
      rcases hpb with h | h
      · rw [h]; omega
      · rw [h]
    have hlo : binTime (n + 1) ≤ pt.start := by
      rw [h4]
      exact backwardWalk_start_ge wf pk n hn' (pb - 1) _ (by omega) (binTime_le (by omega))
    have hhi : pt.start < binTime (j + 1) := by
      rw [h4]
      refine lt_of_le_of_lt (backwardWalk_start_le_max wf pk (pb - 1) _) ?_
      exact max_lt (binTime_lt (by omega)) (binTime_lt (by omega))
    refine ⟨j + 1, le_refl _, ?_, ?_, ?_, ?_⟩
    · rcases hclose with h | h
      · exact Or.inr (Or.inl h)
      · exact Or.inr (Or.inr h)
    · intro q hq
      rw [h2] at hq
      rcases List.mem_append.mp hq with hq | hq
      · exact ⟨(hpts q hq).1, le_trans (hpts q hq).2 (binTime_le (by omega))⟩
      · rw [List.mem_singleton] at hq
        rw [hq, h3]
        exact ⟨hhi, le_refl _⟩
    · rw [h2, List.pairwise_append]
      refine ⟨hpw, List.pairwise_singleton _ _, ?_⟩
      intro a ha b hb
      rw [List.mem_singleton] at hb
      rw [hb]
      exact lt_of_le_of_lt (hpts a ha).2 (lt_of_lt_of_le (binTime_lt (Nat.lt_succ_self n)) hlo)
    · intro h
      rw [h1] at h
      exact absurd h Bool.false_ne_true

theorem chainInv_scanBins (wf : List ℚ) (mu1 : Nat → ℚ) (iChan : Nat) :
    ∀ (len j : Nat) (st : ScanState), ChainInv wf j st → j + len ≤ ADCSIZE →
      ChainInv wf (j + len) (scanBins wf mu1 iChan (List.range' (j + 1) len) st) := by
  intro len
  induction len with
  | zero => intro j st h _; exact h
  | succ len ih =>
    intro j st h hle
    have hstep := chainInv_step wf mu1 iChan st j (by omega) h
    have := ih (j + 1) (binStep wf mu1 iChan st (j + 1)) hstep (by omega)
    rw [List.range'_succ]
    have e : j + (len + 1) = j + 1 + len := by omega
    rw [e]
    exact this

/-- C15. For every waveform, each candidate emitted by the scan of one channel has
`start < end`, and in emission order the end of each candidate is strictly earlier than
the start of the next one (indeed than the start of every later one): the backward walk
stops at the latest at the bin that closed the previous pulse, whose sample is below
`BS_UNCERTAINTY`. -/
theorem candidates_disjoint (wf : List ℚ) (mu1 : Nat → ℚ) (iChan : Nat) (acc : EventAcc) :
    (∀ pt ∈ (scanChannel wf mu1 iChan acc).pulses_temp, pt.start < pt.end_) ∧
    (scanChannel wf mu1 iChan acc).pulses_temp.Chain' (fun a b => a.end_ < b.start) ∧
    (scanChannel wf mu1 iChan acc).pulses_temp.Pairwise (fun a b => a.end_ < b.start) := by
  have h0 : ChainInv wf 0 (ScanState.init acc) := by
    refine ⟨0, le_refl _, Or.inl rfl, ?_, List.Pairwise.nil, ?_⟩
    · intro pt hpt
      exact absurd hpt (List.not_mem_nil pt)
    · intro h
      exact absurd h Bool.false_ne_true
  have h : ChainInv wf ADCSIZE (scanChannel wf mu1 iChan acc) := by
    have h' := chainInv_scanBins wf mu1 iChan ADCSIZE 0 (ScanState.init acc) h0 (by omega)
    simp only [Nat.zero_add] at h'
    unfold scanChannel
    exact h'
  obtain ⟨n, _, _, hpts, hpw, _⟩ := h
  generalize (scanChannel wf mu1 iChan acc).pulses_temp = l at hpts hpw
  exact ⟨fun pt hpt => (hpts pt hpt).1, List.Pairwise.chain' hpw, hpw⟩

/-! ## Multiplicity, fit guard and pulses at the waveform end -/

/-- C11, the code at the failing input. With gain 1, an event in which only primary
channel 0 sees pulses, two of them of energy 50 each, gets `p.number = 2` although one
channel has a pulse above 1 photoelectron; an event in which each of the twelve primary
channels sees two such pulses gets `p.number = 24`, above 12. The counter is incremented
once per pulse, not once per channel. -/
theorem multiplicity_counts_pulses :
    (channelLoop gainOne evTwoPulses.wfs).acc.all_chan_energy = [50, 50] ∧
    (eventData gainOne evTwoPulses 0).p.number = 2 ∧
    channelsAboveOnePE gainOne evTwoPulses.wfs = 1 ∧
    (eventData gainOne evAllTwo 0).p.number = 24 ∧
    channelsAboveOnePE gainOne evAllTwo.wfs = 12 := by
  decide!

/-- C12. The exponential fit is attempted if and only if the time-difference
distribution has more than 5 entries. With more than 5 entries `expFit` holds the result
of the fit engine run on the initial values and limits computed from the distribution, and
no warning is reported; with 5 or fewer entries `expFit` stays null and the warning
reports the number of entries. -/
theorem fit_guard {R : Type} (fitEngine : FitSetup → List ℚ → R) (fills : List ℚ) :
    ((lifetimeFit fitEngine fills).expFit.isSome = true ↔ 5 < fills.length) ∧
    (5 < fills.length →
      (lifetimeFit fitEngine fills).expFit = some (fitEngine (fitSetup fills) fills) ∧
      (lifetimeFit fitEngine fills).warning = none) ∧
    (fills.length ≤ 5 →
      (lifetimeFit fitEngine fills).expFit = none ∧
      (lifetimeFit fitEngine fills).warning = some fills.length) := by
  unfold lifetimeFit
  by_cases h : fills.length > 5
  · rw [if_pos h]
    refine ⟨⟨fun _ => h, fun _ => rfl⟩, fun _ => ⟨rfl, rfl⟩, fun h' => absurd h (by omega)⟩
  · rw [if_neg h]
    refine ⟨⟨fun h' => ?_, fun h' => absurd h' h⟩, fun h' => absurd h' h, fun _ => ⟨rfl, rfl⟩⟩
    exact absurd h' Bool.false_ne_true

/-- Witness for C12: a distribution with 5 entries (fit skipped, warning) and one with 6
entries (fit run), with a fit engine that returns the initial value of `tau`. -/
theorem fit_guard_witness :
    (lifetimeFit (fun s _ => s.tau_init) [1, 2, 3, 4, 5]).expFit = none ∧
    (lifetimeFit (fun s _ => s.tau_init) [1, 2, 3, 4, 5]).warning = some 5 ∧
    (lifetimeFit (fun s _ => s.tau_init) [1, 2, 3, 4, 5, 6]).expFit = some (22 / 10) ∧
    (lifetimeFit (fun s _ => s.tau_init) [1, 2, 3, 4, 5, 6]).warning = none :=
  ⟨((fit_guard (fun s _ => s.tau_init) [1, 2, 3, 4, 5]).2.2 (by decide)).1,
   ((fit_guard (fun s _ => s.tau_init) [1, 2, 3, 4, 5]).2.2 (by decide)).2,
   ((fit_guard (fun s _ => s.tau_init) [1, 2, 3, 4, 5, 6]).2.1 (by decide)).1,
   ((fit_guard (fun s _ => s.tau_init) [1, 2, 3, 4, 5, 6]).2.1 (by decide)).2⟩

/-- Once a sample at or above the threshold was seen before the last bin, a pulse is open
or a candidate was emitted. -/
theorem emit_step (wf : List ℚ) (mu1 : Nat → ℚ) (iChan : Nat) (st : ScanState) (j : Nat)
    (hinv : (∃ i, 1 ≤ i ∧ i ≤ j ∧ PULSE_THRESHOLD ≤ GetBinContent wf i) →
      (st.onPulse = true ∨ st.pulses_temp ≠ [])) :
    (∃ i, 1 ≤ i ∧ i ≤ j + 1 ∧ PULSE_THRESHOLD ≤ GetBinContent wf i) →
      ((binStep wf mu1 iChan st (j + 1)).onPulse = true ∨
        (binStep wf mu1 iChan st (j + 1)).pulses_temp ≠ []) := by
  rintro ⟨i, hi1, hi2, hi3⟩
  rcases binStep_cases wf mu1 iChan st (j + 1) with
    ⟨h0, hc, _, h2⟩ | ⟨_, _, h1, _⟩ | ⟨_, _, h1, _⟩ | ⟨_, _, _, pk, pb, e, pt, _, h2, _⟩
  · have hij : i ≤ j := by
      rcases Nat.lt_or_ge i (j + 1) with h | h
      · omega
      · have he : i = j + 1 := by omega
        rw [he] at hi3
        exact absurd hc (not_lt.mpr hi3)
    rcases hinv ⟨i, hi1, hij, hi3⟩ with h | h
    · rw [h0] at h
      exact absurd h Bool.false_ne_true
    · right
      rw [h2]
      exact h
  · exact Or.inl h1
  · exact Or.inl h1
  · right
    rw [h2]
    exact List.append_ne_nil_of_right_ne_nil _ (List.cons_ne_nil _ _)

theorem emit_scanBins (wf : List ℚ) (mu1 : Nat → ℚ) (iChan : Nat) :
    ∀ (len j : Nat) (st : ScanState), j + len < ADCSIZE →
      ((∃ i, 1 ≤ i ∧ i ≤ j ∧ PULSE_THRESHOLD ≤ GetBinContent wf i) →
        (st.onPulse = true ∨ st.pulses_temp ≠ [])) →
      (∃ i, 1 ≤ i ∧ i ≤ j + len ∧ PULSE_THRESHOLD ≤ GetBinContent wf i) →
        ((scanBins wf mu1 iChan (List.range' (j + 1) len) st).onPulse = true ∨
          (scanBins wf mu1 iChan (List.range' (j + 1) len) st).pulses_temp ≠ []) := by
  intro len
  induction len with
  | zero => intro j st _ h; exact h
  | succ len ih =>
    intro j st hlt h
    have hstep := emit_step wf mu1 iChan st j h
    have := ih (j + 1) (binStep wf mu1 iChan st (j + 1)) (by omega) hstep
    rw [List.range'_succ]
    have e : j + (len + 1) = j + 1 + len := by omega
    rw [e]
    exact this

/-- A sample at or above the threshold before the last bin makes the scan emit. -/
theorem emits_of_early_crossing (wf : List ℚ) (mu1 : Nat → ℚ) (iChan : Nat) (acc : EventAcc)
    (h : ∃ i, 1 ≤ i ∧ i < ADCSIZE ∧ PULSE_THRESHOLD ≤ GetBinContent wf i) :
    (scanChannel wf mu1 iChan acc).pulses_temp ≠ [] := by
  obtain ⟨i, hi1, hi2, hi3⟩ := h
  have hsplit : List.range' 1 ADCSIZE = List.range' (0 + 1) (ADCSIZE - 1) ++ [ADCSIZE] := by
    have : ADCSIZE = (ADCSIZE - 1) + 1 := by unfold ADCSIZE; rfl
    conv_lhs => rw [this]
    rw [List.range'_1_concat]
    unfold ADCSIZE
    rfl
  unfold scanChannel
  rw [hsplit, scanBins_append]
  have h44 := emit_scanBins wf mu1 iChan (ADCSIZE - 1) 0 (ScanState.init acc)
    (by unfold ADCSIZE; omega)
    (by rintro ⟨i, h1, h2, _⟩; omega)
    ⟨i, hi1, by omega, hi3⟩
  generalize scanBins wf mu1 iChan (List.range' (0 + 1) (ADCSIZE - 1)) (ScanState.init acc)
    = s at h44
  show (binStep wf mu1 iChan s ADCSIZE).pulses_temp ≠ []
  rcases binStep_cases wf mu1 iChan s ADCSIZE with
    ⟨h0, _, _, h2⟩ | ⟨h0, _, _, _, _, h2⟩ | ⟨_, hc, _⟩ | ⟨_, _, _, pk, pb, e, pt, _, h2, _⟩
  · rcases h44 with h | h
    · rw [h0] at h
      exact absurd h Bool.false_ne_true
    · rw [h2]; exact h
  · rcases h44 with h | h
    · rw [h0] at h
      exact absurd h Bool.false_ne_true
    · rw [h2]; exact h
  · exact absurd (Or.inr rfl) hc
  · rw [h2]
    exact List.append_ne_nil_of_right_ne_nil _ (List.cons_ne_nil _ _)

/-- C14, the code at the failing input. On the 45-sample waveform whose only sample at
or above the threshold is the last one (50 at bin 45), the pulse is opened at bin 45 and
the loop ends with it still open: no candidate is emitted. The closing test
`iBin == ADCSIZE` sits in the branch taken only when the pulse was already open. For
every waveform with a sample at or above the threshold before bin 45 the scan does emit
a candidate. -/
theorem pulse_at_last_bin_not_emitted :
    (wfLast.length = ADCSIZE ∧ (∃ x ∈ wfLast, x ≥ PULSE_THRESHOLD) ∧
      (scanChannel wfLast gainOne 0 acc0).pulses_temp = [] ∧
      (scanChannel wfLast gainOne 0 acc0).all_chan_start = [] ∧
      (scanChannel wfLast gainOne 0 acc0).onPulse = true ∧
      (scanChannel wfLast gainOne 0 acc0).thresholdBin = 45) ∧
    (∀ (wf : List ℚ) (mu1 : Nat → ℚ) (iChan : Nat) (acc : EventAcc),
      (∃ i, 1 ≤ i ∧ i < ADCSIZE ∧ PULSE_THRESHOLD ≤ GetBinContent wf i) →
      (scanChannel wf mu1 iChan acc).pulses_temp ≠ []) := by
  refine ⟨⟨by decide, ⟨50, by decide!, by decide!⟩, by decide!, by decide!, by decide!,
    by decide!⟩, ?_⟩
  intro wf mu1 iChan acc h
  exact emits_of_early_crossing wf mu1 iChan acc h

/-! ## Timing consensus: ties -/

/-- The scan returns its start value, or the first entry (in list order) whose count is
maximal and exceeds the start count. -/
theorem scan_first (m : List (ℚ × Nat)) :
    ∀ acc : ℚ × Nat, m.Pairwise (fun a b => a.1 < b.1) →
      (m.foldl scanStep acc = acc ∨
       (m.foldl scanStep acc ∈ m ∧ acc.2 < (m.foldl scanStep acc).2 ∧
        ∀ p ∈ m, (m.foldl scanStep acc).2 ≤ p.2 → (m.foldl scanStep acc).1 ≤ p.1)) := by
  induction m with
  | nil => intro acc _; exact Or.inl rfl
  | cons a m ih =>
    intro acc hs
    have hs' := List.pairwise_cons.mp hs
    rw [List.foldl_cons]
    by_cases hgt : a.2 > acc.2
    · have hstep : scanStep acc a = a := by
        unfold scanStep
        rw [if_pos hgt]
      rw [hstep]
      rcases ih a hs'.2 with e | ⟨e1, e2, e3⟩
      · right
        rw [e]
        refine ⟨List.mem_cons_self _ _, hgt, ?_⟩
        intro p hp _
        rcases List.mem_cons.mp hp with e' | e'
        · rw [e']
        · exact le_of_lt (hs'.1 p e')
      · right
        refine ⟨List.mem_cons_of_mem _ e1, lt_trans hgt e2, ?_⟩
        intro p hp hle
        rcases List.mem_cons.mp hp with e' | e'
        · rw [e'] at hle
          omega
        · exact e3 p e' hle
    · have hstep : scanStep acc a = acc := by
        unfold scanStep
        rw [if_neg hgt]
      rw [hstep]
      rcases ih acc hs'.2 with e | ⟨e1, e2, e3⟩
      · exact Or.inl e
      · right
        refine ⟨List.mem_cons_of_mem _ e1, e2, ?_⟩
        intro p hp hle
        rcases List.mem_cons.mp hp with e' | e'
        · rw [e'] at hle
          omega
        · exact e3 p e' hle

/-- C13, amended. When some value occurs at least twice, `mostFrequent` returns a value
of the list of maximal count, and among the values that reach the maximal count it
returns the first one met in the ascending scan of the count map, that is the smallest of
the tied values: the scan replaces its candidate only on a strictly greater count. -/
theorem mostFrequent_tie_break (v : List ℚ) (hrep : ∃ x ∈ v, 2 ≤ v.count x) :
    mostFrequent v ∈ v ∧
    (∀ y, v.count y ≤ v.count (mostFrequent v)) ∧
    (∀ y ∈ v, v.count y = v.count (mostFrequent v) → mostFrequent v ≤ y) := by
  cases v with
  | nil =>
    obtain ⟨x, hx, _⟩ := hrep
    exact absurd hx (List.not_mem_nil x)
  | cons v0 l =>
    obtain ⟨hs, hm⟩ := countMap_rep (v0 :: l)
    obtain ⟨h1, h2, h3⟩ := scan_spec (countMap (v0 :: l)) (v0, 0)
    obtain ⟨x, hx, hx2⟩ := hrep
    have hxm : (x, (v0 :: l).count x) ∈ countMap (v0 :: l) := (hm _).mpr ⟨hx, rfl⟩
    have hbig : 2 ≤ ((countMap (v0 :: l)).foldl scanStep (v0, 0)).2 :=
      le_trans hx2 (h2 _ hxm)
    have hval : mostFrequent (v0 :: l) = ((countMap (v0 :: l)).foldl scanStep (v0, 0)).1 := by
      show (if ((countMap (v0 :: l)).foldl scanStep (v0, 0)).2 > 1 then _ else _) = _
      rw [if_pos (by omega)]
    rcases scan_first (countMap (v0 :: l)) (v0, 0) hs with e | ⟨e1, _, e3⟩
    · rw [e] at hbig
      simp at hbig
    · obtain ⟨hin, hc⟩ := (hm _).mp e1
      rw [hval]
      refine ⟨hin, ?_, ?_⟩
      · intro y
        rw [← hc]
        by_cases hy : y ∈ v0 :: l
        · exact h2 _ ((hm (y, (v0 :: l).count y)).mpr ⟨hy, rfl⟩)
        · rw [List.count_eq_zero_of_not_mem hy]
          exact Nat.zero_le _
      · intro y hy hcnt
        have hym : (y, (v0 :: l).count y) ∈ countMap (v0 :: l) := (hm _).mpr ⟨hy, rfl⟩
        exact e3 _ hym (by
          show ((countMap (v0 :: l)).foldl scanStep (v0, 0)).2 ≤ (v0 :: l).count y
          rw [hc, hcnt])

/-- Witness for C13 amended: the list 3, 1, 3, 1, 2, in which 1 and 3 both occur
twice. -/
theorem mostFrequent_tie_break_witness :
    mostFrequent [3, 1, 3, 1, 2] ∈ ([3, 1, 3, 1, 2] : List ℚ) ∧
    (∀ y, ([3, 1, 3, 1, 2] : List ℚ).count y ≤
      ([3, 1, 3, 1, 2] : List ℚ).count (mostFrequent [3, 1, 3, 1, 2])) ∧
    (∀ y ∈ ([3, 1, 3, 1, 2] : List ℚ),
      ([3, 1, 3, 1, 2] : List ℚ).count y =
        ([3, 1, 3, 1, 2] : List ℚ).count (mostFrequent [3, 1, 3, 1, 2]) →
      mostFrequent [3, 1, 3, 1, 2] ≤ y) :=
  mostFrequent_tie_break [3, 1, 3, 1, 2] ⟨3, by decide, by decide⟩

/-- Counterexample to C13 as stated. In the list 3, 1, 3, 1, 2 the values 1 and 3 both
occur the maximal number of times (2); the count map is (1,2), (2,1), (3,2) and
`mostFrequent` returns 1, the smallest of the tied values, not the largest, 3. -/
theorem tie_returns_smallest :
    ([3, 1, 3, 1, 2] : List ℚ).count 1 = 2 ∧ ([3, 1, 3, 1, 2] : List ℚ).count 3 = 2 ∧
    ([3, 1, 3, 1, 2] : List ℚ).count 2 = 1 ∧
    countMap [3, 1, 3, 1, 2] = [(1, 2), (2, 1), (3, 2)] ∧
    mostFrequent [3, 1, 3, 1, 2] = 1 ∧ mostFrequent [3, 1, 3, 1, 2] ≠ 3 := by
  decide!

/-! ## Timing-consistency flag -/

theorem foldl_sq_eq (l : List ℚ) (m : ℚ) :
    ∀ a : ℚ, l.foldl (fun s val => s + (val - m) * (val - m)) a =
      a + (l.map (fun x => (x - m) * (x - m))).sum := by
  induction l with
  | nil => intro a; simp
  | cons x l ih =>
    intro a
    rw [List.foldl_cons, ih, List.map_cons, List.sum_cons]
    ring

theorem sum_sq_shift (l : List ℚ) (c : ℚ) :
    (l.map (fun x => (x - c) * (x - c))).sum =
      (l.map (fun x => x * x)).sum - 2 * c * l.sum + (l.length : ℚ) * (c * c) := by
  induction l with
  | nil => simp
  | cons x l ih =>
    rw [List.map_cons, List.sum_cons, ih, List.map_cons, List.sum_cons, List.sum_cons,
      List.length_cons]
    push_cast
    ring

/-- The mean minimises the sum of squared deviations. -/
theorem sum_sq_mean_le (l : List ℚ) (c : ℚ) (hne : l ≠ []) :
    (l.map (fun x => (x - getAverage l) * (x - getAverage l))).sum ≤
      (l.map (fun x => (x - c) * (x - c))).sum := by
  have hn : (0 : ℚ) < (l.length : ℚ) := by
    have : 0 < l.length := List.length_pos.mpr hne
    exact_mod_cast this
  have hsum : l.sum = (l.length : ℚ) * getAverage l := by
    rw [getAverage_eq l hne]
    field_simp
  rw [sum_sq_shift l c, sum_sq_shift l (getAverage l), hsum]
  have hsq : 0 ≤ (l.length : ℚ) * ((c - getAverage l) * (c - getAverage l)) :=
    mul_nonneg (le_of_lt hn) (mul_self_nonneg _)
  nlinarith [hsq]

theorem sum_sq_le (l : List ℚ) (c d : ℚ) (h : ∀ x ∈ l, |x - c| < d) :
    (l.map (fun x => (x - c) * (x - c))).sum ≤ (l.length : ℚ) * (d * d) := by
  induction l with
  | nil => simp
  | cons x l ih =>
    have hx := abs_lt.mp (h x (List.mem_cons_self _ _))
    have hl := ih (fun y hy => h y (List.mem_cons_of_mem _ hy))
    rw [List.map_cons, List.sum_cons, List.length_cons]
    push_cast
    have hxx : (x - c) * (x - c) ≤ d * d := by nlinarith [hx.1, hx.2]
    linarith

/-- Values all strictly within `d` of a common point have sample variance at most
`2 * d * d`. -/
theorem variance_le (l : List ℚ) (c d : ℚ) (h : ∀ x ∈ l, |x - c| < d) :
    variance l ≤ 2 * (d * d) := by
  unfold variance
  by_cases hlen : l.length ≤ 1
  · rw [if_pos hlen]
    nlinarith [mul_self_nonneg d]
  · rw [if_neg hlen]
    have hne : l ≠ [] := by
      intro e
      rw [e] at hlen
      exact hlen (Nat.zero_le _)
    have hn2 : (2 : ℚ) ≤ (l.length : ℚ) := by
      have : 2 ≤ l.length := by omega
      exact_mod_cast this
    simp only [foldl_sq_eq, zero_add]
    have h1 := sum_sq_mean_le l c hne
    have h2 := sum_sq_le l c d h
    have hpos : (0 : ℚ) < (l.length : ℚ) - 1 := by linarith
    rw [div_le_iff₀ hpos]
    nlinarith [mul_self_nonneg d]

/-- C16. In exact arithmetic, for every list of channel start times, the sample variance
(denominator n - 1) of the starts lying strictly within 0.16 µs of `mostFrequent` of the
list is below 0.08, so `p.single` is true for every event, also with no pulse or a single
pulse. The variance is at most n/(n-1) * 0.16^2 <= 0.0512. -/
theorem timing_flag_constant (starts : List ℚ) (nsTime triggerBits : ℤ) (last_muon_time : ℚ)
    (es : EventState) :
    variance (starts.filter (fun start => |start - mostFrequent starts| < 10 * 16 / 1000))
      < 5 * 16 / 1000 ∧
    (aggregate nsTime triggerBits last_muon_time es).single = true := by
  have hv : ∀ l : List ℚ, variance (chan_starts_no_outliers l) < 5 * 16 / 1000 := by
    intro l
    have h := variance_le (chan_starts_no_outliers l) (mostFrequent l) (10 * 16 / 1000)
      (by
        intro x hx
        unfold chan_starts_no_outliers at hx
        rw [List.mem_filter] at hx
        exact of_decide_eq_true hx.2)
    refine lt_of_le_of_lt h ?_
    norm_num
  exact ⟨hv starts, decide_eq_true (hv es.acc.all_chan_start)⟩

end MichelAnalysis
